import Mathlib

/-!
Verification development for the SC3020 block-storage / B+ tree engine.

The embedding below is a shallow model of the repository's C++ sources:

* `src/src/indexing/record_pointer.h`  — `RecordPointer`
* `src/src/indexing/bptree.h`          — `BPTreeNode` (lines 54-78) and the
  appended implementation of `BPTree` (lines 448-1410); the claims about
  `removeRange` and `bulkLoad` cite this copy.
* `src/src/indexing/bptree.cpp`        — the `remove` / `removeFromLeaf` /
  `handleUnderflow` implementation (lines 565-644) cited by the
  point-delete claim.
* `src/src/storage/record.h`, `src/src/storage/block.h`,
  `src/unnamed/part_001` (storage.cpp) — `Record`, `Block`, `Database`.

Modelling conventions:

* Keys are `float` (FT_PCT values) in the source.  The source only ever
  *compares* keys (`<`, `<=`, `>=`, `==`) and never computes with them, so
  keys are modelled by `Int`, an order-embedding of the finite floats that
  preserves every comparison the code performs.
* The node / block files are mutable in-memory states: a list of pages
  plus the header fields.  A read beyond the end of the file fails
  (`file.good()` is false), a write beyond the end extends the file,
  zero-filling any gap, exactly as `fstream` seek-and-write does.
* C `int` fields holding ids keep type `Int` (`-1` sentinels); counters
  that are only ever non-negative in reachable states (`num_keys`,
  `num_records`) are modelled by `Nat`.
* Loops whose termination depends on the tree shape (`findLeaf`, leaf
  chains) are given fuel `nodes.length + 1`; in every state the theorems
  touch, the fuel is provably sufficient, so the fueled functions agree
  with the C++ loops.
* `insert` is embedded with *checked* array writes (`Option`-valued): a
  write outside a 101-element `keys` array returns `none` instead of the
  out-of-bounds write the C++ performs.  All other operations only index
  in bounds in the states the theorems are about.
-/

/-- `RecordPointer` from `record_pointer.h`: block id plus slot index. -/
structure RecordPointer where
  block_id : Int
  record_index : Int
deriving DecidableEq, Repr

/-- The `(-1, -1)` default-constructed pointer. -/
def RecordPointer.null : RecordPointer := ⟨-1, -1⟩

/-- Leaf-slot encoding `ptr.block_id * 10000 + ptr.record_index`
(`bptree.h` line 584 and passim). -/
def encodePtr (p : RecordPointer) : Int := p.block_id * 10000 + p.record_index

/-- Decoding `block_id = encoded / 10000`, `record_index = encoded % 10000`
with C truncated division (`bptree.h` lines 795-796). -/
def decodePtr (e : Int) : RecordPointer := ⟨e.tdiv 10000, e.tmod 10000⟩

/-- `operator<` of `std::pair<float, RecordPointer>`: lexicographic on the
key, then on `RecordPointer::operator<` (block id, then slot). -/
def pairLe (a b : Int × RecordPointer) : Prop :=
  a.1 < b.1 ∨ (a.1 = b.1 ∧ (a.2.block_id < b.2.block_id ∨
    (a.2.block_id = b.2.block_id ∧ a.2.record_index ≤ b.2.record_index)))

instance : DecidableRel pairLe := fun a b => by
  unfold pairLe; infer_instance

instance : IsTotal (Int × RecordPointer) pairLe where
  total a b := by
    rcases a with ⟨k, ⟨x, y⟩⟩; rcases b with ⟨k', ⟨x', y'⟩⟩
    unfold pairLe; dsimp only; omega

instance : IsTrans (Int × RecordPointer) pairLe where
  trans a b c hab hbc := by
    rcases a with ⟨k, ⟨x, y⟩⟩; rcases b with ⟨k', ⟨x', y'⟩⟩
    rcases c with ⟨k'', ⟨x'', y''⟩⟩
    unfold pairLe at *; dsimp only at *; omega

instance : IsAntisymm (Int × RecordPointer) pairLe where
  antisymm a b hab hba := by
    rcases a with ⟨k, ⟨x, y⟩⟩; rcases b with ⟨k', ⟨x', y'⟩⟩
    unfold pairLe at *; dsimp only at *
    simp only [Prod.mk.injEq, RecordPointer.mk.injEq]; omega

/-- `std::sort` of the `(key, pointer)` vector.  Sorting with `pairLe` is
canonical: any sorting algorithm produces this list, because `pairLe` is a
total, antisymmetric order on the pairs. -/
def sortPairs (l : List (Int × RecordPointer)) : List (Int × RecordPointer) :=
  List.insertionSort pairLe l

/-- `BPTreeNode` (`bptree.h` lines 54-78): fixed arrays
`keys[101]`, `children[102]`, leaf flag, key count, sibling and parent
links.  The arrays are kept at their declared lengths. -/
structure BPTreeNode where
  is_leaf : Bool
  num_keys : Nat
  keys : List Int
  children : List Int
  next_leaf : Int
  parent : Int
deriving DecidableEq, Repr

/-- `BPTreeNode::MAX_KEYS` and the tree order (`bptree.h` line 55,
constructor lines 466-467). -/
def order : Nat := 101

/-- The `BPTreeNode()` default constructor (`bptree.h` lines 70-77):
a leaf with zeroed keys and `-1` children / links. -/
def blankNode : BPTreeNode :=
  { is_leaf := true
    num_keys := 0
    keys := List.replicate 101 0
    children := List.replicate 102 (-1)
    next_leaf := -1
    parent := -1 }

/-- A node page read from a zero-filled file hole: every byte zero. -/
def zeroNode : BPTreeNode :=
  { is_leaf := false
    num_keys := 0
    keys := List.replicate 101 0
    children := List.replicate 102 0
    next_leaf := 0
    parent := 0 }

/-- The logical `(key, child)` slots `0 ≤ i < num_keys` of a node (for a
leaf, the child is an encoded record pointer). -/
def nodeEntries (n : BPTreeNode) : List (Int × Int) :=
  (List.range n.num_keys).map (fun i => (n.keys.getD i 0, n.children.getD i (-1)))

/-- The in-memory B+ tree state: the node pages of `bptree.bin` after the
8-byte header, plus the header fields `root_id` and `next_node_id`
(`bptree.h` lines 104-106). -/
structure BPTree where
  nodes : List BPTreeNode
  root_id : Int
  next_node_id : Int
deriving DecidableEq, Repr

namespace BPTree

/-- `BPTree::readNode` (`bptree.h` lines 522-535): seek to the page and
read; the read fails (stream not `good`) outside the file. -/
def readNodeT (t : BPTree) (id : Int) : Option BPTreeNode :=
  if 0 ≤ id then t.nodes[id.toNat]? else none

/-- Pad the page list with zero-filled pages up to length `n`
(seek-past-end writes zero-fill the gap). -/
def padTo (l : List BPTreeNode) (n : Nat) : List BPTreeNode :=
  l ++ List.replicate (n - l.length) zeroNode

/-- `BPTree::writeNode` (`bptree.h` lines 507-520): seek and write the
page; a negative id makes the seek fail and the write is lost. -/
def writeNodeT (t : BPTree) (id : Int) (n : BPTreeNode) : BPTree :=
  if 0 ≤ id then { t with nodes := (padTo t.nodes (id.toNat + 1)).set id.toNat n }
  else t

/-- `BPTree::createNode` (`bptree.h` lines 537-545): allocate
`next_node_id`, write the node there, return the id (or `-1` when the
write failed, which happens exactly for a negative id). -/
def createNode (t : BPTree) (n : BPTreeNode) : Int × BPTree :=
  let id := t.next_node_id
  let t' : BPTree := { t with next_node_id := id + 1 }
  if 0 ≤ id then (id, writeNodeT t' id n) else (-1, t')

/-- The child index chosen by `findLeaf`'s inner scan
(`bptree.h` lines 556-559): the first `i < num_keys` with
`key < keys[i]`, else `num_keys`. -/
def branchIndex (n : BPTreeNode) (key : Int) : Nat :=
  ((n.keys.take n.num_keys).takeWhile (fun x => decide (x ≤ key))).length

/-- The descent loop of `BPTree::findLeaf` (`bptree.h` lines 547-564),
with fuel standing in for the unbounded `while`: at each non-leaf node
step into `children[branchIndex]`; a failed read returns `-1`. -/
def findLeafAux (t : BPTree) (key : Int) : Nat → Int → Int
  | 0, _ => -1
  | fuel + 1, cur =>
    match readNodeT t cur with
    | none => -1
    | some n =>
      if n.is_leaf then cur
      else findLeafAux t key fuel (n.children.getD (branchIndex n key) (-1))

/-- `BPTree::findLeaf`: `-1` for an empty tree, else the descent from the
root.  Fuel `nodes.length + 1` is sufficient in every state the theorems
below touch. -/
def findLeaf (t : BPTree) (key : Int) : Int :=
  if t.root_id = -1 then -1 else findLeafAux t key (t.nodes.length + 1) t.root_id

/-- The last key of a leaf, `keys[num_keys - 1]` (`bptree.h` line 802). -/
def leafLastKey (n : BPTreeNode) : Int := n.keys.getD (n.num_keys - 1) 0

/-- The hits one leaf contributes to a range search: the slots whose key
lies in `[kmin, kmax]`, decoded (`bptree.h` lines 791-799). -/
def leafHits (kmin kmax : Int) (n : BPTreeNode) : List RecordPointer :=
  ((nodeEntries n).filter (fun e => decide (kmin ≤ e.1) && decide (e.1 ≤ kmax))).map
    (fun e => decodePtr e.2)

/-- The leaf-chain loop of `BPTree::rangeSearch` (`bptree.h` lines
787-805): collect in-range slots per leaf, stop after a leaf whose last
key exceeds `kmax`, else follow `next_leaf`. -/
def rangeSearchAux (t : BPTree) (kmin kmax : Int) : Nat → Int → List RecordPointer
  | 0, _ => []
  | fuel + 1, leaf_id =>
    if leaf_id = -1 then []
    else
      match readNodeT t leaf_id with
      | none => []
      | some leaf =>
        if kmax < leafLastKey leaf then leafHits kmin kmax leaf
        else leafHits kmin kmax leaf ++ rangeSearchAux t kmin kmax fuel leaf.next_leaf

/-- `BPTree::rangeSearch` (`bptree.h` lines 780-808). -/
def rangeSearch (t : BPTree) (kmin kmax : Int) : List RecordPointer :=
  rangeSearchAux t kmin kmax (t.nodes.length + 1) (findLeaf t kmin)

/-- `getNumNodes` (`bptree.h` line 355): literally `next_node_id`. -/
def getNumNodes (t : BPTree) : Int := t.next_node_id

/-- The descent loop of `getNumLevels` (`bptree.h` lines 913-926),
fueled: follow `children[0]` from the root counting nodes until a leaf
(or a failed read, where the C++ loop also stops). -/
def numLevelsAux (t : BPTree) : Nat → Int → Nat
  | 0, _ => 0
  | fuel + 1, cur =>
    match readNodeT t cur with
    | none => 0
    | some n => if n.is_leaf then 0 else 1 + numLevelsAux t fuel (n.children.getD 0 (-1))

/-- `BPTree::getNumLevels`: `0` for an empty tree, else `1 +` the number
of internal nodes on the leftmost path. -/
def getNumLevels (t : BPTree) : Nat :=
  if t.root_id = -1 then 0 else 1 + numLevelsAux t (t.nodes.length + 1) t.root_id

/-- One `leaf.keys[num_keys] = key; leaf.children[num_keys] = encoded;
leaf.num_keys++` step of the bulk-load fill loop
(`bptree.h` lines 858-863). -/
def addEntry (n : BPTreeNode) (e : Int × RecordPointer) : BPTreeNode :=
  { n with keys := n.keys.set n.num_keys e.1
           children := n.children.set n.num_keys (encodePtr e.2)
           num_keys := n.num_keys + 1 }

/-- The leaf built for one group of at most `order` sorted entries: a
fresh `BPTreeNode()` marked as leaf, filled by the loop of
`bptree.h` lines 844-864. -/
def mkLeaf (c : List (Int × RecordPointer)) : BPTreeNode :=
  c.foldl addEntry { blankNode with is_leaf := true }

/-- The groups of up to `order = 101` consecutive entries that the fill
loop (`i % order == 0` test, `bptree.h` line 846) cuts the sorted data
into. -/
def chunksOfAux : Nat → List α → List (List α)
  | _, [] => []
  | 0, _ :: _ => []
  | fuel + 1, x :: xs => (x :: xs).take order :: chunksOfAux fuel ((x :: xs).drop order)

def chunksOf (l : List α) : List (List α) := chunksOfAux l.length l

/-- The leaf-creation phase of `bulkLoad` (`bptree.h` lines 840-869): for
each group, `createNode` a blank leaf, then write the filled leaf back
over it (the C++ writes leaf `j` back when it starts leaf `j+1`, and the
last one after the loop — same id sequence and same final pages).  The id
is collected only when `createNode` succeeded, as in the C++
`if (current_leaf != -1)` guards. -/
def appendLeaves : BPTree → List (List (Int × RecordPointer)) → BPTree × List Int
  | t, [] => (t, [])
  | t, c :: cs =>
    let p := createNode t { blankNode with is_leaf := true }
    let t1 := writeNodeT p.2 p.1 (mkLeaf c)
    let r := appendLeaves t1 cs
    (r.1, if p.1 = -1 then r.2 else p.1 :: r.2)

/-- The leaf-linking loop (`bptree.h` lines 871-877): read leaf `i`, set
`next_leaf` to leaf `i+1`, write it back. -/
def linkLeaves : BPTree → List Int → BPTree
  | t, a :: b :: rest =>
    let n := (readNodeT t a).getD blankNode
    linkLeaves (writeNodeT t a { n with next_leaf := b }) (b :: rest)
  | t, _ => t

/-- The internal node built over one group of child ids
(`bptree.h` lines 884-897): `children[j] = group[j]`, and
`keys[m] = keys[0]` *of the node stored at* `group[m+1]` — the first key
of the next child, read back from the file. -/
def mkInternal (t : BPTree) (g : List Int) : BPTreeNode :=
  { blankNode with
      is_leaf := false
      num_keys := g.length - 1
      keys := (List.range 101).map (fun m =>
        if m + 1 < g.length then ((readNodeT t (g.getD (m + 1) (-1))).getD blankNode).keys.getD 0 0
        else 0)
      children := (List.range 102).map (fun j => if j < g.length then g.getD j (-1) else -1) }

/-- One level of the bottom-up build (`bptree.h` lines 883-901): create
an internal node for each group of up to `order` child ids. -/
def buildLevel : BPTree → List (List Int) → BPTree × List Int
  | t, [] => (t, [])
  | t, g :: gs =>
    let p := createNode t (mkInternal t g)
    let r := buildLevel p.2 gs
    (r.1, p.1 :: r.2)

/-- The `while (leaf_nodes.size() > 1)` loop (`bptree.h` lines 880-904),
fueled by the number of ids (each level has strictly fewer nodes, so the
fuel is sufficient whenever it is at least the initial length). -/
def buildLevelsAux : Nat → BPTree → List Int → BPTree × List Int
  | 0, t, ids => (t, ids)
  | fuel + 1, t, ids =>
    if ids.length ≤ 1 then (t, ids)
    else
      let r := buildLevel t (chunksOf ids)
      buildLevelsAux fuel r.1 r.2

/-- `BPTree::bulkLoad` (`bptree.h` lines 830-911): reject empty input,
sort, fill and link the leaves, build the upper levels, set `root_id` to
the single remaining id. -/
def bulkLoad (t : BPTree) (data : List (Int × RecordPointer)) : Bool × BPTree :=
  if data = [] then (false, t)
  else
    let sorted := sortPairs data
    let r1 := appendLeaves t (chunksOf sorted)
    let t2 := linkLeaves r1.1 r1.2
    let r3 := buildLevelsAux r1.2.length t2 r1.2
    match r3.2 with
    | [] => (true, r3.1)
    | rootId :: _ => (true, { r3.1 with root_id := rootId })

/-- The survivor entries one leaf contributes to `removeRange`'s rebuild
scan (`bptree.h` lines 1164-1175): the slots whose key is *outside*
`[kmin, kmax]`, with the pointer decoded. -/
def leafSurvivors (kmin kmax : Int) (n : BPTreeNode) : List (Int × RecordPointer) :=
  ((nodeEntries n).filter (fun e => decide (e.1 < kmin) || decide (kmax < e.1))).map
    (fun e => (e.1, decodePtr e.2))

/-- The leaf-traversal loop of `removeRange` (`bptree.h` lines
1160-1180), fueled: follow `next_leaf` from the given leaf, collecting
the out-of-range entries; a failed read stops the loop. -/
def collectSurvAux (t : BPTree) (kmin kmax : Int) : Nat → Int → List (Int × RecordPointer)
  | 0, _ => []
  | fuel + 1, cur =>
    if cur = -1 then []
    else
      match readNodeT t cur with
      | none => []
      | some n => leafSurvivors kmin kmax n ++ collectSurvAux t kmin kmax fuel n.next_leaf

/-- The complete survivor scan of `removeRange`: start at
`findLeaf(0.0f)` (`bptree.h` line 1160) and walk the chain. -/
def collectSurvivors (t : BPTree) (kmin kmax : Int) : List (Int × RecordPointer) :=
  collectSurvAux t kmin kmax (t.nodes.length + 1) (findLeaf t 0)

/-- `BPTree::removeRange` (`bptree.h` lines 1148-1200): count the range
search hits, scan the survivors, reset `root_id = -1` and
`next_node_id = 0`, and — when any entry survives — sort the survivors,
bulk-load them, and finally overwrite `next_node_id` with the constant
`251` (line 1196). -/
def removeRange (t : BPTree) (kmin kmax : Int) : Nat × BPTree :=
  let removed := (rangeSearch t kmin kmax).length
  let survivors := collectSurvivors t kmin kmax
  let t1 : BPTree := { t with root_id := -1, next_node_id := 0 }
  if survivors = [] then (removed, t1)
  else
    let t2 := (bulkLoad t1 (sortPairs survivors)).2
    (removed, { t2 with next_node_id := 251 })

/-- A diagnostic traversal used to *state* what the tree contains: the
decoded `(key, pointer)` entries along the leaf chain, anchored exactly
where `removeRange`'s own scan starts (`findLeaf(0.0f)`). -/
def chainEntriesAux (t : BPTree) : Nat → Int → List (Int × RecordPointer)
  | 0, _ => []
  | fuel + 1, cur =>
    if cur = -1 then []
    else
      match readNodeT t cur with
      | none => []
      | some n =>
        (nodeEntries n).map (fun e => (e.1, decodePtr e.2)) ++
          chainEntriesAux t fuel n.next_leaf

/-- The entries of the tree, as listed by the leaf chain from
`findLeaf 0` (the traversal `removeRange` itself uses to enumerate the
whole index). -/
def treeEntries (t : BPTree) : List (Int × RecordPointer) :=
  chainEntriesAux t (t.nodes.length + 1) (findLeaf t 0)

/-- `BPTree::removeFromLeaf` (`bptree.cpp` lines 598-621): find the first
slot holding `key`, shift the later slots left over it, decrement
`num_keys`, write the leaf back.  No write happens when the key is
absent or the read fails. -/
def removeFromLeaf (t : BPTree) (leaf_id : Int) (key : Int) : BPTree :=
  match readNodeT t leaf_id with
  | none => t
  | some leaf =>
    match (List.range leaf.num_keys).find? (fun i => decide (leaf.keys.getD i 0 = key)) with
    | none => t
    | some ki =>
      let leaf' : BPTreeNode :=
        { leaf with
            keys := (List.range leaf.keys.length).map (fun j =>
              if ki ≤ j ∧ j + 1 < leaf.num_keys then leaf.keys.getD (j + 1) 0
              else leaf.keys.getD j 0)
            children := (List.range leaf.children.length).map (fun j =>
              if ki ≤ j ∧ j + 1 < leaf.num_keys then leaf.children.getD (j + 1) (-1)
              else leaf.children.getD j (-1))
            num_keys := leaf.num_keys - 1 }
      writeNodeT t leaf_id leaf'

/-- `BPTree::handleUnderflow` from `bptree.cpp` (lines 623-644): only the
root-collapse case acts; an underflowed non-root node is left as-is. -/
def handleUnderflow (t : BPTree) (node_id : Int) : BPTree :=
  match readNodeT t node_id with
  | none => t
  | some n =>
    if n.parent = -1 then
      if n.num_keys = 0 ∧ n.is_leaf = false ∧ n.children.getD 0 (-1) ≠ -1 then
        let rid := n.children.getD 0 (-1)
        let t1 : BPTree := { t with root_id := rid }
        let nr := (readNodeT t1 rid).getD blankNode
        writeNodeT t1 rid { nr with parent := -1 }
      else t
    else t

/-- `BPTree::remove` (`bptree.cpp` lines 565-596): locate the leaf for
`key`; if the leaf does not hold the key, return `false` without
touching the tree; otherwise remove it from the leaf and run the
underflow check. -/
def remove (t : BPTree) (key : Int) : Bool × BPTree :=
  if t.root_id = -1 then (false, t)
  else
    let leaf_id := findLeaf t key
    if leaf_id = -1 then (false, t)
    else
      match readNodeT t leaf_id with
      | none => (false, t)
      | some leaf =>
        if (List.range leaf.num_keys).any (fun i => decide (leaf.keys.getD i 0 = key)) then
          let t1 := removeFromLeaf t leaf_id key
          match readNodeT t1 leaf_id with
          | none => (true, t1)
          | some updated =>
            if updated.parent ≠ -1 ∧ updated.num_keys < (order + 1) / 2 then
              (true, handleUnderflow t1 leaf_id)
            else (true, t1)
        else (false, t)

/-- The leaf ids reachable from a node by following `children[i]`,
`0 ≤ i ≤ num_keys`, at internal nodes — the part of the file `findLeaf`
can ever land on.  Fueled like `findLeafAux`. -/
def reachLeaves (t : BPTree) : Nat → Int → List Int
  | 0, _ => []
  | fuel + 1, cur =>
    match readNodeT t cur with
    | none => []
    | some n =>
      if n.is_leaf then [cur]
      else ((List.range (n.num_keys + 1)).map
        (fun i => reachLeaves t fuel (n.children.getD i (-1)))).flatten

/-- The leaves of the tree: descent-reachable leaf ids from the root. -/
def treeLeafIds (t : BPTree) : List Int :=
  reachLeaves t (t.nodes.length + 1) t.root_id

/-- A checked array write: `some` of the updated list in bounds, `none`
where the C++ `a[i] = x` would write out of bounds. -/
def setC (l : List α) (i : Nat) (a : α) : Option (List α) :=
  if i < l.length then some (l.set i a) else none

/-- `BPTree::insertIntoLeaf` (`bptree.h` lines 566-588) with checked
array writes.  The shift loop runs `j = num_keys, …, i+1` writing
`keys[j]` and `children[j]`; then `keys[i]` and `children[i]` are
written.  On a leaf already holding `num_keys = 101` keys the first shift
write (or, when `i = 101`, the final write) targets `keys[101]`, one past
the end of the 101-element array, and the checked write returns `none`. -/
def shiftRight (keys children : List Int) (lo : Nat) : Nat → Option (List Int × List Int)
  | 0 => some (keys, children)
  | j + 1 =>
    if lo < j + 1 then
      match setC keys (j + 1) (keys.getD j 0), setC children (j + 1) (children.getD j (-1)) with
      | some ks, some cs => shiftRight ks cs lo j
      | _, _ => none
    else some (keys, children)

def insertIntoLeafC (t : BPTree) (leaf_id : Int) (key : Int) (ptr : RecordPointer) :
    Option BPTree :=
  match readNodeT t leaf_id with
  | none => some t
  | some leaf =>
    let i := ((leaf.keys.take leaf.num_keys).takeWhile (fun x => decide (x < key))).length
    match shiftRight leaf.keys leaf.children i leaf.num_keys with
    | none => none
    | some (ks, cs) =>
      match setC ks i key, setC cs i (encodePtr ptr) with
      | some ks', some cs' =>
        some (writeNodeT t leaf_id
          { leaf with keys := ks', children := cs', num_keys := leaf.num_keys + 1 })
      | _, _ => none

/-- Write `vals` into positions `i, i+1, …` of `dst`, checked. -/
def writeSeq (dst : List Int) : Nat → List Int → Option (List Int)
  | _, [] => some dst
  | i, v :: vs =>
    match setC dst i v with
    | none => none
    | some d => writeSeq d (i + 1) vs

/-- The slots `src[lo], …, src[lo+n-1]`. -/
def takeSlots (src : List Int) (lo n : Nat) (dflt : Int) : List Int :=
  (List.range n).map (fun i => src.getD (lo + i) dflt)

mutual

/-- `BPTree::insertIntoParent` (`bptree.h` lines 623-675) with checked
array writes, fueled on the parent chain (the C++ recursion ascends
through `splitInternal`). -/
def insertIntoParentC : Nat → BPTree → Int → Int → Int → Option BPTree
  | 0, _, _, _, _ => none
  | fuel + 1, t, left_id, key, right_id =>
    if t.root_id = left_id then
      let newRoot : BPTreeNode :=
        { blankNode with
            is_leaf := false
            num_keys := 1
            keys := blankNode.keys.set 0 key
            children := (blankNode.children.set 0 left_id).set 1 right_id }
      let p := createNode t newRoot
      let t1 : BPTree := { p.2 with root_id := p.1 }
      let ln := (readNodeT t1 left_id).getD blankNode
      let rn := (readNodeT t1 right_id).getD blankNode
      let t2 := writeNodeT t1 left_id { ln with parent := p.1 }
      let t3 := writeNodeT t2 right_id { rn with parent := p.1 }
      some t3
    else
      let lnode := (readNodeT t left_id).getD blankNode
      let parent_id := lnode.parent
      match readNodeT t parent_id with
      | none => some t
      | some parent =>
        let i := ((parent.children.take parent.num_keys).takeWhile
          (fun c => decide (c ≠ left_id))).length
        match shiftParent parent.keys parent.children i parent.num_keys with
        | none => none
        | some (ks, cs) =>
          match setC ks i key, setC cs (i + 1) right_id with
          | some ks', some cs' =>
            let parent' : BPTreeNode :=
              { parent with keys := ks', children := cs', num_keys := parent.num_keys + 1 }
            let t1 := writeNodeT t parent_id parent'
            if parent'.num_keys > order then splitInternalC fuel t1 parent_id
            else some t1
          | _, _ => none

/-- The parent shift loop of `insertIntoParent` (lines 659-662):
`keys[j] = keys[j-1]; children[j+1] = children[j]` for
`j = num_keys, …, i+1`, checked. -/
def shiftParent (keys children : List Int) (lo : Nat) : Nat → Option (List Int × List Int)
  | j =>
    if lo < j then
      match setC keys j (keys.getD (j - 1) 0), setC children (j + 1) (children.getD j (-1)) with
      | some ks, some cs => shiftParent ks cs lo (j - 1)
      | _, _ => none
    else some (keys, children)

/-- `BPTree::splitInternal` (`bptree.h` lines 677-707) with checked
writes, fueled like `insertIntoParentC`. -/
def splitInternalC : Nat → BPTree → Int → Option BPTree
  | 0, _, _ => none
  | fuel + 1, t, node_id =>
    match readNodeT t node_id with
    | none => some t
    | some node =>
      let newNode0 : BPTreeNode := { blankNode with is_leaf := false, parent := node.parent }
      let p := createNode t newNode0
      let mid := node.num_keys / 2
      let promote := node.keys.getD mid 0
      let nmoved := node.num_keys - (mid + 1)
      match writeSeq newNode0.keys 0 (takeSlots node.keys (mid + 1) nmoved 0),
            writeSeq newNode0.children 0
              (takeSlots node.children (mid + 1) nmoved (-1) ++
                [node.children.getD node.num_keys (-1)]) with
      | some nk, some nc =>
        let newNode : BPTreeNode :=
          { newNode0 with keys := nk, children := nc, num_keys := nmoved }
        let t1 := writeNodeT p.2 node_id { node with num_keys := mid }
        let t2 := writeNodeT t1 p.1 newNode
        insertIntoParentC fuel t2 node_id promote p.1
      | _, _ => none

end

/-- `BPTree::splitLeaf` (`bptree.h` lines 590-621) with checked writes. -/
def splitLeafC (fuel : Nat) (t : BPTree) (leaf_id : Int) : Option BPTree :=
  match readNodeT t leaf_id with
  | none => some t
  | some leaf =>
    let newLeaf0 : BPTreeNode :=
      { blankNode with is_leaf := true, next_leaf := leaf.next_leaf, parent := leaf.parent }
    let p := createNode t newLeaf0
    let mid := leaf.num_keys / 2
    match writeSeq newLeaf0.keys 0 (takeSlots leaf.keys mid (leaf.num_keys - mid) 0),
          writeSeq newLeaf0.children 0 (takeSlots leaf.children mid (leaf.num_keys - mid) (-1)) with
    | some nk, some nc =>
      let newLeaf : BPTreeNode :=
        { newLeaf0 with keys := nk, children := nc, num_keys := leaf.num_keys - mid }
      let t1 := writeNodeT p.2 leaf_id { leaf with num_keys := mid, next_leaf := p.1 }
      let t2 := writeNodeT t1 p.1 newLeaf
      insertIntoParentC fuel t2 leaf_id (newLeaf.keys.getD 0 0) p.1
    | _, _ => none

/-- `BPTree::insert` (`bptree.h` lines 709-737) in the checked embedding:
a first key creates a root leaf; otherwise descend to the target leaf and
insert, splitting after the insertion when the leaf was already full.
`none` marks a C++ execution that performs an out-of-bounds array
write. -/
def insertC (t : BPTree) (key : Int) (ptr : RecordPointer) : Option (Bool × BPTree) :=
  if t.root_id = -1 then
    let root : BPTreeNode :=
      { blankNode with
          is_leaf := true
          num_keys := 1
          keys := blankNode.keys.set 0 key
          children := blankNode.children.set 0 (encodePtr ptr) }
    let p := createNode t root
    some (true, { p.2 with root_id := p.1 })
  else
    let leaf_id := findLeaf t key
    if leaf_id = -1 then some (false, t)
    else
      match readNodeT t leaf_id with
      | none => some (false, t)
      | some leaf =>
        if leaf.num_keys < order then
          (insertIntoLeafC t leaf_id key ptr).map (fun t' => (true, t'))
        else
          match insertIntoLeafC t leaf_id key ptr with
          | none => none
          | some t1 =>
            (splitLeafC (t1.nodes.length + 1) t1 leaf_id).map (fun t' => (true, t'))

end BPTree

/-- `Record` (`record.h` lines 29-48): nine fixed-width fields, 44 bytes
on the wire.  The date is its 11 raw bytes; the three `float`
percentages are modelled like the keys, as integers. -/
structure Record where
  game_date : List Int
  team_id_home : Int
  pts_home : Int
  fg_pct_home : Int
  ft_pct_home : Int
  fg3_pct_home : Int
  ast_home : Int
  reb_home : Int
  home_team_wins : Int
deriving DecidableEq, Repr

/-- The `Record()` default constructor: `memset 0`, the deleted-slot
sentinel. -/
def zeroRecord : Record := ⟨List.replicate 11 0, 0, 0, 0, 0, 0, 0, 0, 0⟩

/-- `sizeof(Record)`: pinned to 44 bytes by the `static_assert` in
`record.h` line 111. -/
def recordSize : Nat := 44

/-- `Block::BLOCK_SIZE`, `HEADER_SIZE`, `DATA_SIZE`, `MAX_RECORDS`
(`block.h` lines 54-57): `4096`, `16`, `4080`, `4080 / 44 = 92`. -/
def blockSize : Nat := 4096

def headerSize : Nat := 16

def dataSize : Nat := blockSize - headerSize

def maxRecords : Nat := dataSize / recordSize

/-- `Block` (`block.h` lines 53-163): a 16-byte header and 92 record
slots; `Block()` zero-fills everything (including `next_block`, which the
`memset` leaves at `0`). -/
structure Block where
  block_id : Int
  num_records : Nat
  next_block : Int
  data : List Record
deriving DecidableEq, Repr

/-- A fully zeroed block: the `Block()` constructor, and also the content
of a zero-filled file hole. -/
def zeroBlock : Block := ⟨0, 0, 0, List.replicate maxRecords zeroRecord⟩

namespace Block

/-- `Block::addRecord` (`block.h` lines 80-96): fail when
`num_records >= MAX_RECORDS`; otherwise copy the record into slot
`num_records` and increment the count. -/
def addRecord (b : Block) (r : Record) : Bool × Block :=
  if b.num_records ≥ maxRecords then (false, b)
  else (true, { b with data := b.data.set b.num_records r, num_records := b.num_records + 1 })

/-- `Block::isFull` (`block.h` lines 129-131). -/
def isFull (b : Block) : Bool := b.num_records ≥ maxRecords

/-- `Block::getRecord` (`block.h` lines 106-120): the zero record when
`index >= num_records`, else slot `index`. -/
def getRecord (b : Block) (i : Nat) : Record :=
  if i ≥ b.num_records then zeroRecord else b.data.getD i zeroRecord

end Block

/-- `MAX_DATABASE_SIZE` (`record.h` line 160 and the local constant in
`Database::addRecord`): 100 MiB. -/
def maxDatabaseSize : Nat := 100 * 1024 * 1024

/-- The in-memory heap state: the block pages of `database.bin` after the
8-byte header, plus the header fields `num_blocks` and `num_records`
(`record.h` lines 164-167). -/
structure Database where
  blocks : List Block
  num_blocks : Nat
  num_records : Nat
deriving DecidableEq, Repr

namespace Database

/-- `Database::readBlock` (storage.cpp lines 130-145): read the page at
`8 + id*4096`; the read fails outside the file. -/
def readBlockD (db : Database) (id : Int) : Option Block :=
  if 0 ≤ id then db.blocks[id.toNat]? else none

/-- `Database::writeBlock` (storage.cpp lines 104-119): seek and write;
a negative id fails, a write past the end extends the file with
zero-filled pages. -/
def writeBlockD (db : Database) (id : Int) (b : Block) : Bool × Database :=
  if 0 ≤ id then
    (true, { db with blocks :=
      ((db.blocks ++ List.replicate (id.toNat + 1 - db.blocks.length) zeroBlock).set id.toNat b) })
  else (false, db)

/-- `Database::addBlock` (storage.cpp lines 156-169): write at id
`num_blocks`, then increment `num_blocks`. -/
def addBlock (db : Database) (b : Block) : Int × Database :=
  let r := writeBlockD db (Int.ofNat db.num_blocks) b
  if r.1 then (Int.ofNat db.num_blocks, { r.2 with num_blocks := r.2.num_blocks + 1 })
  else (-1, db)

/-- `Database::addRecord` (storage.cpp lines 187-220): append into the
last block when it has room; otherwise check the 100 MiB cap
(`num_blocks * 4096 + 8 + 4096 ≤ MAX_DATABASE_SIZE`) and, if allowed,
start a fresh block holding the record. -/
def addRecord (db : Database) (r : Record) : Bool × Database :=
  let step1 : Option (Bool × Database) :=
    if db.num_blocks > 0 then
      match readBlockD db (Int.ofNat (db.num_blocks - 1)) with
      | some currentBlock =>
        if ¬currentBlock.isFull then
          let b' := (currentBlock.addRecord r).2
          let w := writeBlockD db (Int.ofNat (db.num_blocks - 1)) b'
          some (true, { w.2 with num_records := w.2.num_records + 1 })
        else none
      | none => none
    else none
  match step1 with
  | some res => res
  | none =>
    if db.num_blocks * blockSize + 8 + blockSize > maxDatabaseSize then (false, db)
    else
      let newBlock := ({ zeroBlock with block_id := Int.ofNat db.num_blocks }.addRecord r).2
      let a := addBlock db newBlock
      if a.1 ≠ -1 then (true, { a.2 with num_records := a.2.num_records + 1 })
      else (false, db)

/-- `Database::deleteRecord` (storage.cpp lines 240-252) in the checked
embedding.  The C++ reads the block, then `memcpy`s the 44-byte zero
record to `data + record_index * 44` with *no* bounds check, and writes
the block back, returning the write's status.  The `memcpy` stays inside
the 4080-byte record area iff `0 ≤ 44*idx` and `44*idx + 44 ≤ 4080`,
i.e. iff `0 ≤ idx < 92`; outside that range the checked embedding
returns `none` (the C++ writes out of bounds and still reports
success). -/
def deleteRecord (db : Database) (block_id record_index : Int) : Option (Bool × Database) :=
  match readBlockD db block_id with
  | none => some (false, db)
  | some b =>
    if 0 ≤ record_index * (recordSize : Int) ∧
        record_index * (recordSize : Int) + recordSize ≤ (dataSize : Int) then
      let b' : Block := { b with data := b.data.set record_index.toNat zeroRecord }
      some (writeBlockD db block_id b')
    else none

end Database

/-- The encoded image of a list of `(key, pointer)` pairs, as stored in
leaf slots. -/
def encChunk (c : List (Int × RecordPointer)) : List (Int × Int) :=
  c.map (fun e => (e.1, encodePtr e.2))

/-- Decoding one stored slot back to a `(key, pointer)` pair. -/
def decEntry (e : Int × Int) : Int × RecordPointer := (e.1, decodePtr e.2)

/-- A pointer the leaf encoding can represent faithfully
(`record_index < 10000`, spec §3; non-negative ids). -/
def okPtr (p : RecordPointer) : Prop :=
  0 ≤ p.block_id ∧ 0 ≤ p.record_index ∧ p.record_index < 10000

instance decOkPtr (p : RecordPointer) : Decidable (okPtr p) :=
  inferInstanceAs (Decidable (0 ≤ p.block_id ∧ 0 ≤ p.record_index ∧ p.record_index < 10000))

/-- The first key of a chunk of entries. -/
def firstKeyOfChunk (c : List (Int × RecordPointer)) : Int :=
  (c.map Prod.fst).headD 0

namespace BPTree

/-- `LeafChain t id css` — starting at node `id`, the store holds a
`next_leaf`-linked chain of leaves whose stored `(key, encoded-pointer)`
slots are exactly the lists in `css`, ending with the `-1` sentinel. -/
def LeafChain (t : BPTree) : Int → List (List (Int × Int)) → Prop
  | id, [] => id = -1
  | id, c :: cs =>
    ∃ n, readNodeT t id = some n ∧ n.is_leaf = true ∧ nodeEntries n = c ∧
      LeafChain t n.next_leaf cs

end BPTree

/-! ### Generic list facts -/

theorem takeWhile_pred_of_lt {α} (p : α → Bool) (d : α) :
    ∀ (l : List α) (i : Nat), i < (l.takeWhile p).length → p (l.getD i d) = true := by
  intro l
  induction l with
  | nil => intro i h; simp [List.takeWhile] at h
  | cons a l ih =>
    intro i h
    rw [List.takeWhile_cons] at h
    by_cases hp : p a
    · simp [hp] at h
      match i with
      | 0 => simpa using hp
      | j + 1 => simpa using ih j (by omega)
    · simp [hp] at h

theorem takeWhile_length_le {α} (p : α → Bool) (l : List α) :
    (l.takeWhile p).length ≤ l.length :=
  (l.takeWhile_prefix p).length_le

theorem getD_map_range {β} (f : Nat → β) (d : β) (n i : Nat) (h : i < n) :
    ((List.range n).map f).getD i d = f i := by
  rw [List.getD_eq_getElem?_getD, List.getElem?_map, List.getElem?_range h]
  rfl

theorem flatten_sorted_cross {α} {R : α → α → Prop} {l1 l2 : List α}
    (h : List.Sorted R (l1 ++ l2)) : ∀ a ∈ l1, ∀ b ∈ l2, R a b :=
  (List.pairwise_append.mp h).2.2

namespace BPTree

/-! ### Store primitives -/

theorem writeNodeT_root (t : BPTree) (id : Int) (n : BPTreeNode) :
    (writeNodeT t id n).root_id = t.root_id := by
  unfold writeNodeT; split <;> rfl

theorem writeNodeT_next (t : BPTree) (id : Int) (n : BPTreeNode) :
    (writeNodeT t id n).next_node_id = t.next_node_id := by
  unfold writeNodeT; split <;> rfl

theorem writeNodeT_length (t : BPTree) (id : Int) (n : BPTreeNode) (h : 0 ≤ id) :
    (writeNodeT t id n).nodes.length = max t.nodes.length (id.toNat + 1) := by
  unfold writeNodeT padTo
  simp only [h, if_pos, List.length_set, List.length_append, List.length_replicate]
  omega

theorem writeNodeT_length_le (t : BPTree) (id : Int) (n : BPTreeNode) :
    t.nodes.length ≤ (writeNodeT t id n).nodes.length := by
  unfold writeNodeT padTo
  split
  · simp only [List.length_set, List.length_append, List.length_replicate]; omega
  · exact le_refl _

theorem readNodeT_lt_length {t : BPTree} {id : Int} {n : BPTreeNode}
    (h : readNodeT t id = some n) : 0 ≤ id ∧ id.toNat < t.nodes.length := by
  unfold readNodeT at h
  by_cases hid : 0 ≤ id
  · refine ⟨hid, ?_⟩
    simp only [hid, if_pos] at h
    exact (List.getElem?_eq_some.mp h).1
  · simp [hid] at h

theorem readNodeT_writeNodeT_self (t : BPTree) (id : Int) (n : BPTreeNode) (h : 0 ≤ id) :
    readNodeT (writeNodeT t id n) id = some n := by
  unfold readNodeT writeNodeT padTo
  simp only [h, if_pos]
  rw [List.getElem?_set_self]
  simp only [List.length_append, List.length_replicate]
  omega

theorem readNodeT_writeNodeT_ne {t : BPTree} {b : Int} {m : BPTreeNode} (a : Int)
    (n : BPTreeNode) (hne : a ≠ b) (h : readNodeT t b = some m) :
    readNodeT (writeNodeT t a n) b = some m := by
  obtain ⟨hb, hlt⟩ := readNodeT_lt_length h
  have hb' : t.nodes[b.toNat]? = some m := by
    unfold readNodeT at h; simpa [hb] using h
  unfold writeNodeT
  by_cases ha : 0 ≤ a
  · have hab : a.toNat ≠ b.toNat := by omega
    simp only [ha, if_pos]
    unfold readNodeT padTo
    simp only [hb, if_pos]
    rw [List.getElem?_set_ne hab, List.getElem?_append, if_pos hlt]
    exact hb'
  · simp only [ha, if_neg, not_false_iff]
    exact h

theorem createNode_eq (t : BPTree) (n : BPTreeNode) (h : 0 ≤ t.next_node_id) :
    createNode t n =
      (t.next_node_id,
        writeNodeT { t with next_node_id := t.next_node_id + 1 } t.next_node_id n) := by
  simp [createNode, h]

/-! ### Sorting -/

theorem sortPairs_perm (l : List (Int × RecordPointer)) : List.Perm (sortPairs l) l :=
  List.perm_insertionSort _ l

theorem sortPairs_sorted (l : List (Int × RecordPointer)) : List.Sorted pairLe (sortPairs l) :=
  List.sorted_insertionSort _ l

theorem sortPairs_eq_of_sorted {l : List (Int × RecordPointer)}
    (h : List.Sorted pairLe l) : sortPairs l = l :=
  List.eq_of_perm_of_sorted (sortPairs_perm l) (sortPairs_sorted l) h

theorem pairLe_key {a b : Int × RecordPointer} (h : pairLe a b) : a.1 ≤ b.1 := by
  rcases h with h | ⟨h, _⟩
  · exact le_of_lt h
  · exact le_of_eq h

theorem sortPairs_length (l : List (Int × RecordPointer)) :
    (sortPairs l).length = l.length :=
  (sortPairs_perm l).length_eq

theorem mem_sortPairs {l : List (Int × RecordPointer)} {e : Int × RecordPointer} :
    e ∈ sortPairs l ↔ e ∈ l :=
  (sortPairs_perm l).mem_iff

/-! ### Chunking -/

theorem chunksOfAux_irrel :
    ∀ (f1 : Nat) (f2 : Nat) (l : List α), l.length ≤ f1 → l.length ≤ f2 →
      chunksOfAux f1 l = chunksOfAux f2 l := by
  intro f1
  induction f1 with
  | zero =>
    intro f2 l h1 _
    cases l with
    | nil => cases f2 <;> rfl
    | cons x xs => simp at h1
  | succ g1 ih =>
    intro f2 l h1 h2
    cases l with
    | nil => cases f2 <;> rfl
    | cons x xs =>
      cases f2 with
      | zero => simp at h2
      | succ g2 =>
        simp only [chunksOfAux]
        congr 1
        apply ih
        · rw [List.length_drop]
          simp only [List.length_cons] at h1 ⊢
          simp only [order]
          omega
        · rw [List.length_drop]
          simp only [List.length_cons] at h2 ⊢
          simp only [order]
          omega

theorem chunksOf_nil : chunksOf ([] : List α) = [] := rfl

theorem chunksOf_cons (x : α) (xs : List α) :
    chunksOf (x :: xs) = (x :: xs).take order :: chunksOf ((x :: xs).drop order) := by
  show chunksOfAux (xs.length + 1) (x :: xs) = _
  simp only [chunksOfAux]
  unfold chunksOf
  congr 1
  apply chunksOfAux_irrel
  · rw [List.length_drop]
    simp only [List.length_cons, order]
    omega
  · rfl

theorem chunksOf_rec {motive : List α → Prop} (h0 : motive [])
    (h1 : ∀ x xs, motive ((x :: xs).drop order) → motive (x :: xs)) (l : List α) :
    motive l := by
  suffices H : ∀ (n : Nat) (m : List α), m.length ≤ n → motive m from H l.length l le_rfl
  intro n
  induction n with
  | zero =>
    intro m hm
    cases m with
    | nil => exact h0
    | cons x xs => simp at hm
  | succ n ih =>
    intro m hm
    cases m with
    | nil => exact h0
    | cons x xs =>
      refine h1 x xs (ih _ ?_)
      rw [List.length_drop]
      simp only [List.length_cons] at hm ⊢
      simp only [order]
      omega

theorem chunksOf_flatten : ∀ (l : List α), (chunksOf l).flatten = l := by
  intro l
  induction l using chunksOf_rec with
  | h0 => simp [chunksOf_nil]
  | h1 x xs ih =>
    rw [chunksOf_cons]
    simp only [List.flatten_cons, ih, List.take_append_drop]

theorem chunksOf_mem_ne_nil {l : List α} {c : List α} (h : c ∈ chunksOf l) : c ≠ [] := by
  induction l using chunksOf_rec with
  | h0 => simp [chunksOf_nil] at h
  | h1 x xs ih =>
    rw [chunksOf_cons] at h
    rcases List.mem_cons.mp h with h | h
    · subst h; simp [order]
    · exact ih h

theorem chunksOf_mem_length_le {l : List α} {c : List α} (h : c ∈ chunksOf l) :
    c.length ≤ order := by
  induction l using chunksOf_rec with
  | h0 => simp [chunksOf_nil] at h
  | h1 x xs ih =>
    rw [chunksOf_cons] at h
    rcases List.mem_cons.mp h with h | h
    · subst h; simp [List.length_take_le]
    · exact ih h

theorem chunksOf_eq_nil_iff {l : List α} : chunksOf l = [] ↔ l = [] := by
  cases l with
  | nil => simp [chunksOf_nil]
  | cons x xs => rw [chunksOf_cons]; simp

theorem chunksOf_length_le_mul :
    ∀ (l : List α) (k : Nat), l.length ≤ order * k → (chunksOf l).length ≤ k := by
  intro l
  induction l using chunksOf_rec with
  | h0 => simp [chunksOf_nil]
  | h1 x xs ih =>
    intro k h
    rw [chunksOf_cons]
    simp only [List.length_cons]
    have hlen : ((x :: xs).drop order).length = (x :: xs).length - order := by simp
    simp only [order, List.length_cons] at *
    have hk : 1 ≤ k := by by_contra hc; omega
    have := ih (k - 1) (by omega)
    omega

theorem chunksOf_length_le {l : List α} (h : l.length ≤ order * order) :
    (chunksOf l).length ≤ order :=
  chunksOf_length_le_mul l order h

theorem chunksOf_of_le {l : List α} (h0 : l ≠ []) (h : l.length ≤ order) :
    chunksOf l = [l] := by
  cases l with
  | nil => exact absurd rfl h0
  | cons x xs =>
    rw [chunksOf_cons]
    have hd : (x :: xs).drop order = [] := List.drop_eq_nil_of_le h
    have ht : (x :: xs).take order = x :: xs := List.take_of_length_le h
    rw [hd, ht]
    simp [chunksOf_nil]

end BPTree

namespace BPTree

/-! ### Leaf chains and the scans over them -/

theorem nodeEntries_length (n : BPTreeNode) : (nodeEntries n).length = n.num_keys := by
  simp [nodeEntries]

theorem nodeEntries_keys {n : BPTreeNode} {c : List (Int × Int)} (h : nodeEntries n = c)
    {i : Nat} (hi : i < c.length) : n.keys.getD i 0 = (c.getD i (0, 0)).1 := by
  subst h
  rw [nodeEntries_length] at hi
  unfold nodeEntries
  rw [getD_map_range _ _ _ _ hi]

theorem leafLastKey_of_entries {n : BPTreeNode} {c : List (Int × Int)}
    (h : nodeEntries n = c) (hc : c ≠ []) :
    leafLastKey n = (c.getD (c.length - 1) (0, 0)).1 := by
  have hlen : c.length = n.num_keys := by rw [← h, nodeEntries_length]
  have hpos : 0 < c.length := List.length_pos.mpr hc
  unfold leafLastKey
  rw [nodeEntries_keys h (by omega), hlen]

theorem lastKey_mem_map_fst {n : BPTreeNode} {c : List (Int × Int)}
    (h : nodeEntries n = c) (hc : c ≠ []) : leafLastKey n ∈ c.map Prod.fst := by
  rw [leafLastKey_of_entries h hc]
  have hpos : 0 < c.length := List.length_pos.mpr hc
  have : c.getD (c.length - 1) (0, 0) ∈ c := by
    rw [List.getD_eq_getElem?_getD, List.getElem?_eq_getElem (by omega)]
    simp only [Option.getD_some]
    exact List.getElem_mem _
  exact List.mem_map_of_mem _ this

theorem LeafChain_tail {t : BPTree} {id : Int} {c : List (Int × Int)}
    {cs : List (List (Int × Int))} (h : LeafChain t id (c :: cs)) :
    ∃ n, readNodeT t id = some n ∧ n.is_leaf = true ∧ nodeEntries n = c ∧
      LeafChain t n.next_leaf cs := h

theorem rangeSearchAux_chain (t : BPTree) (kmin kmax : Int) :
    ∀ (cs : List (List (Int × Int))) (id : Int) (fuel : Nat),
      LeafChain t id cs → cs.length < fuel →
      (∀ c ∈ cs, c ≠ []) →
      List.Sorted (· ≤ ·) (cs.flatten.map Prod.fst) →
      rangeSearchAux t kmin kmax fuel id =
        (cs.flatten.filter (fun e => decide (kmin ≤ e.1) && decide (e.1 ≤ kmax))).map
          (fun e => decodePtr e.2) := by
  intro cs
  induction cs with
  | nil =>
    intro id fuel hch hf _ _
    match fuel, hf with
    | f + 1, _ =>
      have hid : id = -1 := hch
      simp [rangeSearchAux, hid]
  | cons c cs ih =>
    intro id fuel hch hf hne hsort
    obtain ⟨n, hr, hl, hent, hch'⟩ := hch
    match fuel, hf with
    | f + 1, hf =>
      have hid : ¬(id = -1) := by
        obtain ⟨h0, _⟩ := readNodeT_lt_length hr
        omega
      have hhits : leafHits kmin kmax n =
          (c.filter (fun e => decide (kmin ≤ e.1) && decide (e.1 ≤ kmax))).map
            (fun e => decodePtr e.2) := by
        unfold leafHits; rw [hent]
      have hcross : ∀ b ∈ (cs.flatten.map Prod.fst), leafLastKey n ≤ b := by
        intro b hb
        rw [List.flatten_cons, List.map_append] at hsort
        exact flatten_sorted_cross hsort _ (lastKey_mem_map_fst hent (hne c (by simp))) b hb
      unfold rangeSearchAux
      simp only [hid, if_neg, not_false_iff, hr]
      by_cases hbreak : kmax < leafLastKey n
      · simp only [hbreak, if_pos, hhits]
        have hnil : cs.flatten.filter
            (fun e => decide (kmin ≤ e.1) && decide (e.1 ≤ kmax)) = [] := by
          rw [List.filter_eq_nil_iff]
          intro e he
          have : leafLastKey n ≤ e.1 :=
            hcross e.1 (List.mem_map_of_mem Prod.fst he)
          simp only [Bool.and_eq_true, decide_eq_true_eq, not_and]
          intro _; omega
        rw [List.flatten_cons, List.filter_append, hnil, List.append_nil]
      · simp only [hbreak, if_neg, not_false_iff]
        rw [ih n.next_leaf f hch' (by simpa using hf) (fun d hd => hne d (by simp [hd]))
          (by rw [List.flatten_cons, List.map_append] at hsort
              exact (List.pairwise_append.mp hsort).2.1)]
        rw [List.flatten_cons, List.filter_append, List.map_append, hhits]

theorem collectSurvAux_chain (t : BPTree) (kmin kmax : Int) :
    ∀ (cs : List (List (Int × Int))) (id : Int) (fuel : Nat),
      LeafChain t id cs → cs.length < fuel →
      collectSurvAux t kmin kmax fuel id =
        (cs.flatten.filter (fun e => decide (e.1 < kmin) || decide (kmax < e.1))).map
          decEntry := by
  intro cs
  induction cs with
  | nil =>
    intro id fuel hch hf
    match fuel, hf with
    | f + 1, _ =>
      have hid : id = -1 := hch
      simp [collectSurvAux, hid]
  | cons c cs ih =>
    intro id fuel hch hf
    obtain ⟨n, hr, hl, hent, hch'⟩ := hch
    match fuel, hf with
    | f + 1, hf =>
      have hid : ¬(id = -1) := by
        obtain ⟨h0, _⟩ := readNodeT_lt_length hr
        omega
      unfold collectSurvAux
      simp only [hid, if_neg, not_false_iff, hr]
      rw [ih n.next_leaf f hch' (by simpa using hf)]
      unfold leafSurvivors
      rw [hent, List.flatten_cons, List.filter_append, List.map_append]
      rfl

theorem chainEntriesAux_chain (t : BPTree) :
    ∀ (cs : List (List (Int × Int))) (id : Int) (fuel : Nat),
      LeafChain t id cs → cs.length < fuel →
      chainEntriesAux t fuel id = cs.flatten.map decEntry := by
  intro cs
  induction cs with
  | nil =>
    intro id fuel hch hf
    match fuel, hf with
    | f + 1, _ =>
      have hid : id = -1 := hch
      simp [chainEntriesAux, hid]
  | cons c cs ih =>
    intro id fuel hch hf
    obtain ⟨n, hr, hl, hent, hch'⟩ := hch
    match fuel, hf with
    | f + 1, hf =>
      have hid : ¬(id = -1) := by
        obtain ⟨h0, _⟩ := readNodeT_lt_length hr
        omega
      unfold chainEntriesAux
      simp only [hid, if_neg, not_false_iff, hr]
      rw [ih n.next_leaf f hch' (by simpa using hf)]
      rw [hent, List.flatten_cons, List.map_append]
      rfl

end BPTree

namespace BPTree

/-! ### The leaves built by the fill loop -/

theorem addEntry_entries (n : BPTreeNode) (e : Int × RecordPointer)
    (hk : n.keys.length = 101) (hc : n.children.length = 102) (hn : n.num_keys < 101) :
    nodeEntries (addEntry n e) = nodeEntries n ++ [(e.1, encodePtr e.2)] := by
  unfold nodeEntries addEntry
  simp only [List.range_succ, List.map_append, List.map_cons, List.map_nil]
  congr 1
  · apply List.map_congr_left
    intro i hi
    have hilt : i < n.num_keys := List.mem_range.mp hi
    rw [List.getD_eq_getElem?_getD, List.getElem?_set_ne (by omega),
      List.getD_eq_getElem?_getD (n := i), List.getD_eq_getElem?_getD,
      List.getElem?_set_ne (by omega), List.getD_eq_getElem?_getD (n := i)]
  · rw [List.getD_eq_getElem?_getD, List.getElem?_set_self (by omega),
      List.getD_eq_getElem?_getD, List.getElem?_set_self (by omega)]
    rfl

theorem foldl_addEntry_spec :
    ∀ (c : List (Int × RecordPointer)) (n : BPTreeNode),
      n.keys.length = 101 → n.children.length = 102 → n.num_keys + c.length ≤ 101 →
      (c.foldl addEntry n).keys.length = 101 ∧
      (c.foldl addEntry n).children.length = 102 ∧
      (c.foldl addEntry n).num_keys = n.num_keys + c.length ∧
      (c.foldl addEntry n).is_leaf = n.is_leaf ∧
      (c.foldl addEntry n).next_leaf = n.next_leaf ∧
      (c.foldl addEntry n).parent = n.parent ∧
      nodeEntries (c.foldl addEntry n) = nodeEntries n ++ encChunk c := by
  intro c
  induction c with
  | nil =>
    intro n hk hc hn
    simp [encChunk, hk, hc]
  | cons e c ih =>
    intro n hk hc hn
    simp only [List.foldl_cons]
    have hn1 : n.num_keys < 101 := by simp at hn; omega
    have hk' : (addEntry n e).keys.length = 101 := by simp [addEntry, hk]
    have hc' : (addEntry n e).children.length = 102 := by simp [addEntry, hc]
    have hcount : (addEntry n e).num_keys = n.num_keys + 1 := rfl
    obtain ⟨r1, r2, r3, r4, r5, r6, r7⟩ :=
      ih (addEntry n e) hk' hc' (by simp [hcount] at *; omega)
    refine ⟨r1, r2, ?_, r4, r5, r6, ?_⟩
    · rw [r3, hcount]; simp; omega
    · rw [r7, addEntry_entries n e hk hc hn1]
      simp [encChunk]

theorem mkLeaf_spec (c : List (Int × RecordPointer)) (h : c.length ≤ 101) :
    (mkLeaf c).keys.length = 101 ∧
    (mkLeaf c).children.length = 102 ∧
    (mkLeaf c).num_keys = c.length ∧
    (mkLeaf c).is_leaf = true ∧
    (mkLeaf c).next_leaf = -1 ∧
    (mkLeaf c).parent = -1 ∧
    nodeEntries (mkLeaf c) = encChunk c := by
  unfold mkLeaf
  obtain ⟨r1, r2, r3, r4, r5, r6, r7⟩ :=
    foldl_addEntry_spec c { blankNode with is_leaf := true }
      (by simp [blankNode]) (by simp [blankNode]) (by simp [blankNode]; omega)
  refine ⟨r1, r2, ?_, r4, r5, r6, ?_⟩
  · rw [r3]; simp [blankNode]
  · rw [r7]
    have : nodeEntries { blankNode with is_leaf := true } = [] := by
      simp [nodeEntries, blankNode]
    rw [this, List.nil_append]

end BPTree

namespace BPTree

/-! ### The leaf-creation phase -/

theorem readNodeT_setNext (t : BPTree) (x id : Int) :
    readNodeT { t with next_node_id := x } id = readNodeT t id := rfl

theorem readNodeT_setRoot (t : BPTree) (x id : Int) :
    readNodeT { t with root_id := x } id = readNodeT t id := rfl

theorem appendLeaves_spec :
    ∀ (cs : List (List (Int × RecordPointer))) (t : BPTree), 0 ≤ t.next_node_id →
      (appendLeaves t cs).2 =
        (List.range cs.length).map (fun j : Nat => t.next_node_id + (j : Int)) ∧
      (appendLeaves t cs).1.next_node_id = t.next_node_id + cs.length ∧
      (appendLeaves t cs).1.root_id = t.root_id ∧
      t.nodes.length ≤ (appendLeaves t cs).1.nodes.length ∧
      (∀ b m, readNodeT t b = some m → b < t.next_node_id →
        readNodeT (appendLeaves t cs).1 b = some m) ∧
      (∀ j (hj : j < cs.length),
        readNodeT (appendLeaves t cs).1 (t.next_node_id + (j : Int)) =
          some (mkLeaf (cs.get ⟨j, hj⟩))) := by
  intro cs
  induction cs with
  | nil =>
    intro t ht
    refine ⟨by simp [appendLeaves], by simp [appendLeaves], rfl, le_refl _, ?_, ?_⟩
    · intro b m h _; exact h
    · intro j hj; exact absurd hj (by simp)
  | cons c cs ih =>
    intro t ht
    have hcr := createNode_eq t { blankNode with is_leaf := true } ht
    set b := t.next_node_id with hb
    have hbne : ¬(b = -1) := by omega
    set tw := writeNodeT { t with next_node_id := b + 1 } b { blankNode with is_leaf := true }
      with htw
    set t1 := writeNodeT tw b (mkLeaf c) with ht1
    have hstep : appendLeaves t (c :: cs) =
        ((appendLeaves t1 cs).1, b :: (appendLeaves t1 cs).2) := by
      rw [appendLeaves, hcr]
      dsimp only
      rw [if_neg hbne]
    have ht1next : t1.next_node_id = b + 1 := by
      rw [ht1, writeNodeT_next, htw, writeNodeT_next]
    have ht1root : t1.root_id = t.root_id := by
      rw [ht1, writeNodeT_root, htw, writeNodeT_root]
    have ht1len : t.nodes.length ≤ t1.nodes.length := by
      have h1 : t.nodes.length ≤ tw.nodes.length := by
        rw [htw]
        exact writeNodeT_length_le { t with next_node_id := b + 1 } _ _
      have h2 : tw.nodes.length ≤ t1.nodes.length := by
        rw [ht1]
        exact writeNodeT_length_le _ _ _
      omega
    have ht1read : readNodeT t1 b = some (mkLeaf c) := readNodeT_writeNodeT_self _ _ _ (by omega)
    have ht1pres : ∀ id m, readNodeT t id = some m → id < b → readNodeT t1 id = some m := by
      intro id m h hlt
      rw [ht1]
      refine readNodeT_writeNodeT_ne b _ (by omega) ?_
      rw [htw]
      refine readNodeT_writeNodeT_ne b _ (by omega) ?_
      rw [readNodeT_setNext]
      exact h
    obtain ⟨i1, i2, i3, i4, i5, i6⟩ := ih t1 (by omega)
    refine ⟨?_, ?_, ?_, ?_, ?_, ?_⟩
    · rw [hstep]
      simp only []
      rw [i1, ht1next]
      simp only [List.length_cons, List.range_succ_eq_map, List.map_cons, List.map_map]
      congr 1
      · simp
      · apply List.map_congr_left
        intro j _
        simp only [Function.comp, Nat.succ_eq_add_one]
        push_cast
        ring
    · rw [hstep]
      simp only []
      rw [i2, ht1next]
      simp only [List.length_cons]
      push_cast
      ring
    · rw [hstep]
      simp only []
      rw [i3, ht1root]
    · rw [hstep]
      simp only []
      exact le_trans ht1len i4
    · intro id m h hlt
      rw [hstep]
      simp only []
      exact i5 id m (ht1pres id m h hlt) (by omega)
    · intro j hj
      rw [hstep]
      simp only []
      match j with
      | 0 =>
        simpa using i5 b (mkLeaf c) ht1read (by omega)
      | j + 1 =>
        have := i6 j (by simpa using hj)
        rw [ht1next] at this
        have harith : t.next_node_id + ((j + 1 : Nat) : Int) = b + 1 + (j : Int) := by
          push_cast; ring
        rw [harith]
        simpa using this

end BPTree

namespace BPTree

/-! ### The leaf-linking phase -/

theorem writeNodeT_length_of_lt (t : BPTree) (id : Int) (n : BPTreeNode) (h : 0 ≤ id)
    (hlt : id.toNat < t.nodes.length) :
    (writeNodeT t id n).nodes.length = t.nodes.length := by
  rw [writeNodeT_length _ _ _ h]; omega

theorem linkLeaves_spec :
    ∀ (ids : List Int) (t : BPTree) (f : Nat → BPTreeNode),
      ids.Nodup →
      (∀ j (hj : j < ids.length), readNodeT t (ids.get ⟨j, hj⟩) = some (f j)) →
      (linkLeaves t ids).next_node_id = t.next_node_id ∧
      (linkLeaves t ids).root_id = t.root_id ∧
      (linkLeaves t ids).nodes.length = t.nodes.length ∧
      (∀ b m, readNodeT t b = some m → b ∉ ids →
        readNodeT (linkLeaves t ids) b = some m) ∧
      (∀ j (hj : j < ids.length),
        readNodeT (linkLeaves t ids) (ids.get ⟨j, hj⟩) =
          some (if hj2 : j + 1 < ids.length
                then { f j with next_leaf := ids.get ⟨j + 1, hj2⟩ }
                else f j)) := by
  intro ids
  induction ids with
  | nil =>
    intro t f _ _
    refine ⟨rfl, rfl, rfl, ?_, ?_⟩
    · intro b m h _; exact h
    · intro j hj; exact absurd hj (by simp)
  | cons a tail ih =>
    intro t f hnd hreads
    cases tail with
    | nil =>
      refine ⟨rfl, rfl, rfl, ?_, ?_⟩
      · intro b m h _; exact h
      · intro j hj
        match j, hj with
        | 0, _ =>
          have := hreads 0 (by simp)
          simpa using this
    | cons b rest =>
      have ha : readNodeT t a = some (f 0) := by simpa using hreads 0 (by simp)
      have hlink : linkLeaves t (a :: b :: rest) =
          linkLeaves (writeNodeT t a { f 0 with next_leaf := b }) (b :: rest) := by
        rw [linkLeaves]
        rw [ha]
        rfl
      set t' := writeNodeT t a { f 0 with next_leaf := b } with ht'
      have hand := List.nodup_cons.mp hnd
      have hanotin : a ∉ b :: rest := hand.1
      have htl : (b :: rest).Nodup := hand.2
      have hreads' : ∀ j (hj : j < (b :: rest).length),
          readNodeT t' ((b :: rest).get ⟨j, hj⟩) = some (f (j + 1)) := by
        intro j hj
        have hne : a ≠ (b :: rest).get ⟨j, hj⟩ := by
          intro hcontra
          exact hanotin (by rw [hcontra]; exact List.get_mem _ _ _)
        rw [ht']
        exact readNodeT_writeNodeT_ne a _ hne (by simpa using hreads (j + 1) (by simpa using hj))
      obtain ⟨i1, i2, i3, i4, i5⟩ := ih t' (fun j => f (j + 1)) htl hreads'
      have ha0 : 0 ≤ a := (readNodeT_lt_length ha).1
      have halt : a.toNat < t.nodes.length := (readNodeT_lt_length ha).2
      refine ⟨?_, ?_, ?_, ?_, ?_⟩
      · rw [hlink, i1, ht', writeNodeT_next]
      · rw [hlink, i2, ht', writeNodeT_root]
      · rw [hlink, i3, ht', writeNodeT_length_of_lt t a _ ha0 halt]
      · intro c m h hc
        rw [hlink]
        have hcn : c ∉ b :: rest := fun hx => hc (List.mem_cons_of_mem _ hx)
        have hca : a ≠ c := fun hx => hc (hx ▸ List.mem_cons_self _ _)
        refine i4 c m ?_ hcn
        rw [ht']
        exact readNodeT_writeNodeT_ne a _ hca h
      · intro j hj
        match j, hj with
        | 0, _ =>
          rw [hlink]
          have hwrite : readNodeT t' a = some { f 0 with next_leaf := b } :=
            ht' ▸ readNodeT_writeNodeT_self t a _ ha0
          have hres := i4 a _ hwrite hanotin
          have hcond : (0 : Nat) + 1 < (a :: b :: rest).length := by simp
          rw [dif_pos hcond]
          simpa using hres
        | k + 1, hj =>
          rw [hlink]
          have hres := i5 k (by simpa using hj)
          by_cases hc : k + 1 < (b :: rest).length
          · rw [dif_pos (show k + 1 + 1 < (a :: b :: rest).length by simpa using hc)]
            rw [dif_pos hc] at hres
            simpa using hres
          · rw [dif_neg (show ¬(k + 1 + 1 < (a :: b :: rest).length) by simpa using hc)]
            rw [dif_neg hc] at hres
            simpa using hres

end BPTree

theorem get_map_range {β} (g : Nat → β) (n j : Nat) (hj : j < ((List.range n).map g).length) :
    ((List.range n).map g).get ⟨j, hj⟩ = g j := by
  simp only [List.get_eq_getElem, List.getElem_map, List.getElem_range]

theorem length_map_range {β} (g : Nat → β) (n : Nat) : ((List.range n).map g).length = n := by
  simp

theorem nodup_map_range_add (base : Int) (n : Nat) :
    ((List.range n).map (fun j : Nat => base + (j : Int))).Nodup := by
  refine List.Nodup.map ?_ (List.nodup_range n)
  intro x y hxy
  dsimp only at hxy
  omega

theorem mem_map_range_add {base : Int} {n : Nat} {id : Int}
    (h : id ∈ (List.range n).map (fun j : Nat => base + (j : Int))) :
    ∃ j : Nat, j < n ∧ id = base + (j : Int) := by
  obtain ⟨j, hj, rfl⟩ := List.mem_map.mp h
  exact ⟨j, List.mem_range.mp hj, rfl⟩

namespace BPTree

/-! ### The internal level built over the leaves -/

theorem mkInternal_fields (t : BPTree) (g : List Int) :
    (mkInternal t g).is_leaf = false ∧ (mkInternal t g).num_keys = g.length - 1 ∧
    (mkInternal t g).keys.length = 101 ∧ (mkInternal t g).children.length = 102 := by
  refine ⟨rfl, rfl, ?_, ?_⟩ <;> simp [mkInternal]

theorem mkInternal_children (t : BPTree) (g : List Int) (j : Nat) (hj : j < g.length)
    (hle : g.length ≤ 102) :
    (mkInternal t g).children.getD j (-1) = g.getD j (-1) := by
  unfold mkInternal
  simp only []
  rw [getD_map_range _ _ _ _ (by omega), if_pos hj]

theorem mkInternal_keys (t : BPTree) (g : List Int) (m : Nat) (hm : m + 1 < g.length)
    (hle : g.length ≤ 102) :
    (mkInternal t g).keys.getD m 0 =
      ((readNodeT t (g.getD (m + 1) (-1))).getD blankNode).keys.getD 0 0 := by
  unfold mkInternal
  simp only []
  rw [getD_map_range _ _ _ _ (by omega), if_pos hm]

theorem buildLevel_single (t : BPTree) (g : List Int) (h : 0 ≤ t.next_node_id) :
    buildLevel t [g] =
      (writeNodeT { t with next_node_id := t.next_node_id + 1 } t.next_node_id
        (mkInternal t g), [t.next_node_id]) := by
  unfold buildLevel
  rw [createNode_eq t _ h]
  rfl

theorem buildLevelsAux_le_one (fuel : Nat) (t : BPTree) (ids : List Int)
    (h : ids.length ≤ 1) : buildLevelsAux fuel t ids = (t, ids) := by
  cases fuel with
  | zero => rfl
  | succ f => unfold buildLevelsAux; rw [if_pos h]

theorem buildLevelsAux_step (fuel : Nat) (t : BPTree) (ids : List Int)
    (h : 2 ≤ ids.length) :
    buildLevelsAux (fuel + 1) t ids =
      buildLevelsAux fuel (buildLevel t (chunksOf ids)).1 (buildLevel t (chunksOf ids)).2 := by
  conv_lhs => rw [buildLevelsAux]
  rw [if_neg (by omega)]

/-- Assemble a `LeafChain` from per-position reads: leaf `j` stores
entries `css[j]` and links to position `j+1` (the last to `-1`). -/
theorem LeafChain_build :
    ∀ (ids : List Int) (css : List (List (Int × Int))) (t : BPTree),
      ids.length = css.length →
      (∀ j (hj : j < ids.length) (hj' : j < css.length), ∃ n,
        readNodeT t (ids.get ⟨j, hj⟩) = some n ∧ n.is_leaf = true ∧
        nodeEntries n = css.get ⟨j, hj'⟩ ∧
        n.next_leaf = (if h2 : j + 1 < ids.length then ids.get ⟨j + 1, h2⟩ else -1)) →
      LeafChain t (ids.headD (-1)) css := by
  intro ids
  induction ids with
  | nil =>
    intro css t hlen _
    have : css = [] := List.eq_nil_of_length_eq_zero (by simpa using hlen.symm)
    subst this
    exact rfl
  | cons a tl ih =>
    intro css t hlen hreads
    cases css with
    | nil => simp at hlen
    | cons c ctl =>
      obtain ⟨n, hr, hl, he, hnext⟩ := hreads 0 (by simp) (by simp)
      refine ⟨n, hr, hl, he, ?_⟩
      cases tl with
      | nil =>
        have hctl : ctl = [] := by
          refine List.eq_nil_of_length_eq_zero ?_
          simp only [List.length_cons, List.length_nil] at hlen
          omega
        subst hctl
        have : n.next_leaf = -1 := by
          rw [hnext, dif_neg (by simp)]
        exact this
      | cons b tl' =>
        have hnext' : n.next_leaf = b := by
          rw [hnext, dif_pos (by simp)]
          simp
        rw [hnext']
        have hb : b = (b :: tl').headD (-1) := rfl
        rw [hb]
        refine ih ctl t (by simpa using hlen) ?_
        intro j hj hj'
        obtain ⟨m, hm1, hm2, hm3, hm4⟩ := hreads (j + 1) (by simpa using hj) (by simpa using hj')
        refine ⟨m, ?_, hm2, ?_, ?_⟩
        · simpa using hm1
        · simpa using hm3
        · rw [hm4]
          by_cases hc : j + 1 < (b :: tl').length
          · rw [dif_pos (by simpa using hc), dif_pos hc]
            simp
          · rw [dif_neg (by simpa using hc), dif_neg hc]

end BPTree

theorem getD_eq_get {α} (l : List α) (d : α) {j : Nat} (h : j < l.length) :
    l.getD j d = l.get ⟨j, h⟩ := by
  rw [List.getD_eq_getElem?_getD, List.getElem?_eq_getElem h]
  rfl

theorem getD_mem {α} (l : List α) (d : α) {j : Nat} (h : j < l.length) :
    l.getD j d ∈ l := by
  rw [getD_eq_get l d h]
  exact List.get_mem _ _ _

namespace BPTree

theorem mkLeaf_firstKey (c : List (Int × RecordPointer)) (hne : c ≠ []) (hle : c.length ≤ 101) :
    (mkLeaf c).keys.getD 0 0 = firstKeyOfChunk c := by
  obtain ⟨_, _, _, _, _, _, h7⟩ := mkLeaf_spec c hle
  cases c with
  | nil => exact absurd rfl hne
  | cons x xs =>
    have hlt : (0 : Nat) < (encChunk (x :: xs)).length := by simp [encChunk]
    have := nodeEntries_keys h7 hlt
    rw [this]
    simp [encChunk, firstKeyOfChunk]

theorem sortPairs_ne_nil {S : List (Int × RecordPointer)} (h : S ≠ []) : sortPairs S ≠ [] := by
  intro hc
  have := sortPairs_length S
  rw [hc] at this
  exact h (List.eq_nil_of_length_eq_zero this.symm)

/-- `bulkLoad` on non-empty data is its four phases in sequence. -/
theorem bulkLoad_as_phases (t0 : BPTree) (S : List (Int × RecordPointer)) (hS : S ≠ []) :
    bulkLoad t0 S =
      (let r1 := appendLeaves t0 (chunksOf (sortPairs S))
       let t2 := linkLeaves r1.1 r1.2
       let r3 := buildLevelsAux r1.2.length t2 r1.2
       match r3.2 with
       | [] => (true, r3.1)
       | rootId :: _ => (true, { r3.1 with root_id := rootId })) := by
  rw [bulkLoad, if_neg hS]

/-- The full characterisation of `bulkLoad` on inputs of at most
`order²` entries (trees of at most two levels): it succeeds, the leaves
are the consecutive pages `base, …, base+L-1` holding the sorted chunks
and linked left-to-right, and — when there are at least two leaves — the
root is the internal node at page `base+L` whose children are the leaves
and whose separator keys are the first keys of chunks `1, …, L-1`. -/
theorem bulkLoad_spec (t0 : BPTree) (S : List (Int × RecordPointer)) (hS : S ≠ [])
    (hlen : S.length ≤ order * order) (hbase : 0 ≤ t0.next_node_id) :
    (bulkLoad t0 S).1 = true ∧
    (bulkLoad t0 S).2.root_id =
      (if (chunksOf (sortPairs S)).length = 1 then t0.next_node_id
       else t0.next_node_id + ((chunksOf (sortPairs S)).length : Int)) ∧
    (bulkLoad t0 S).2.next_node_id =
      (if (chunksOf (sortPairs S)).length = 1 then t0.next_node_id + 1
       else t0.next_node_id + ((chunksOf (sortPairs S)).length : Int) + 1) ∧
    (∀ j, j < (chunksOf (sortPairs S)).length → ∃ n,
      readNodeT (bulkLoad t0 S).2 (t0.next_node_id + (j : Int)) = some n ∧
      n.is_leaf = true ∧
      nodeEntries n = encChunk ((chunksOf (sortPairs S)).getD j []) ∧
      n.keys.getD 0 0 = firstKeyOfChunk ((chunksOf (sortPairs S)).getD j []) ∧
      n.next_leaf = (if j + 1 < (chunksOf (sortPairs S)).length
        then t0.next_node_id + (j : Int) + 1 else -1)) ∧
    (2 ≤ (chunksOf (sortPairs S)).length → ∃ root,
      readNodeT (bulkLoad t0 S).2
          (t0.next_node_id + ((chunksOf (sortPairs S)).length : Int)) = some root ∧
      root.is_leaf = false ∧
      root.num_keys = (chunksOf (sortPairs S)).length - 1 ∧
      (∀ j, j < (chunksOf (sortPairs S)).length →
        root.children.getD j (-1) = t0.next_node_id + (j : Int)) ∧
      root.keys.take root.num_keys =
        (List.range ((chunksOf (sortPairs S)).length - 1)).map
          (fun m => firstKeyOfChunk ((chunksOf (sortPairs S)).getD (m + 1) []))) := by
  set base := t0.next_node_id with hbdef
  set sorted := sortPairs S with hsorteddef
  set cs := chunksOf sorted with hcsdef
  set L := cs.length with hLdef
  have hsne : sorted ≠ [] := sortPairs_ne_nil hS
  have hcsne : cs ≠ [] := fun hc => hsne (chunksOf_eq_nil_iff.mp hc)
  have hLpos : 0 < L := List.length_pos.mpr hcsne
  have hLle : L ≤ order := by
    rw [hLdef, hcsdef]
    exact chunksOf_length_le (by rw [hsorteddef, sortPairs_length]; exact hlen)
  have hL101 : L ≤ 101 := by simpa [order] using hLle
  have hchunk : ∀ c ∈ cs, c ≠ [] ∧ c.length ≤ 101 := by
    intro c hc
    exact ⟨chunksOf_mem_ne_nil hc, by simpa [order] using chunksOf_mem_length_le hc⟩
  -- Phase A: leaves
  obtain ⟨a1, a2, a3, a4, a5, a6⟩ := appendLeaves_spec cs t0 hbase
  set r1 := appendLeaves t0 cs with hr1def
  set ids := (List.range L).map (fun j : Nat => base + (j : Int)) with hidsdef
  have hidslen : ids.length = L := by rw [hidsdef, length_map_range]
  have hidsget : ∀ j (hj : j < ids.length), ids.get ⟨j, hj⟩ = base + (j : Int) := by
    intro j hj
    exact get_map_range _ _ _ _
  -- Phase B: linking
  have hreads1 : ∀ j (hj : j < ids.length),
      readNodeT r1.1 (ids.get ⟨j, hj⟩) = some (mkLeaf (cs.getD j [])) := by
    intro j hj
    rw [hidsget j hj]
    have hjL : j < L := by omega
    have := a6 j (by omega)
    rw [getD_eq_get cs [] (by omega)]
    exact this
  obtain ⟨l1, l2, l3, l4, l5⟩ :=
    linkLeaves_spec ids r1.1 (fun j => mkLeaf (cs.getD j []))
      (hidsdef ▸ nodup_map_range_add base L) hreads1
  set t2 := linkLeaves r1.1 ids with ht2def
  have ht2next : t2.next_node_id = base + L := by rw [l1, a2]
  have hleafread : ∀ j, j < L → readNodeT t2 (base + (j : Int)) =
      some (if j + 1 < L then { mkLeaf (cs.getD j []) with next_leaf := base + (j : Int) + 1 }
            else mkLeaf (cs.getD j [])) := by
    intro j hj
    have hj' : j < ids.length := by omega
    have := l5 j hj'
    rw [hidsget j hj'] at this
    rw [this]
    by_cases hc : j + 1 < L
    · rw [dif_pos (by omega : j + 1 < ids.length), if_pos hc]
      have : ids.get ⟨j + 1, by omega⟩ = base + ((j + 1 : Nat) : Int) := hidsget _ _
      rw [this]
      congr 2
      push_cast
      ring_nf
    · rw [dif_neg (by omega : ¬(j + 1 < ids.length)), if_neg hc]
  -- Compute the final tree in the two shape cases
  by_cases hL1 : L = 1
  · -- single leaf, root is the leaf itself
    have hids1 : ids = [base + ((0 : Nat) : Int)] := by
      rw [hidsdef, hL1]
      rfl
    have hfinal : bulkLoad t0 S = (true, { t2 with root_id := base + ((0 : Nat) : Int) }) := by
      rw [bulkLoad_as_phases t0 S hS]
      dsimp only
      rw [← hsorteddef, ← hcsdef, ← hr1def, a1, ← ht2def,
        buildLevelsAux_le_one _ _ _ (by omega : ids.length ≤ 1), hids1]
    have hchunk0 : cs.getD 0 [] ∈ cs := getD_mem cs [] (by omega)
    obtain ⟨hc0ne, hc0le⟩ := hchunk (cs.getD 0 []) hchunk0
    obtain ⟨m1, m2, m3, m4, m5, m6, m7⟩ := mkLeaf_spec (cs.getD 0 []) hc0le
    refine ⟨by rw [hfinal], ?_, ?_, ?_, ?_⟩
    · rw [hfinal, if_pos hL1]
      simp
    · rw [hfinal, if_pos hL1]
      have : ({ t2 with root_id := base + ((0 : Nat) : Int) } : BPTree).next_node_id =
          t2.next_node_id := rfl
      rw [this, ht2next, hL1]
      push_cast
      ring
    · intro j hj
      have hj0 : j = 0 := by omega
      subst hj0
      refine ⟨mkLeaf (cs.getD 0 []), ?_, m4, m7, mkLeaf_firstKey _ hc0ne hc0le, ?_⟩
      · rw [hfinal]
        have hrd : readNodeT { t2 with root_id := base + ((0 : Nat) : Int) }
            (base + ((0 : Nat) : Int)) = readNodeT t2 (base + ((0 : Nat) : Int)) :=
          readNodeT_setRoot _ _ _
        rw [hrd]
        have := hleafread 0 (by omega)
        rw [if_neg (by omega : ¬(0 + 1 < L))] at this
        exact this
      · rw [if_neg (by omega : ¬(0 + 1 < L))]
        exact m5
    · intro h2
      omega
  · have hL2 : 2 ≤ L := by omega
    have hidsne : ids ≠ [] := by
      intro hc
      have := hidslen
      rw [hc] at this
      simp at this
      omega
    have hchunkids : chunksOf ids = [ids] := chunksOf_of_le hidsne (by omega)
    have ht2next0 : 0 ≤ t2.next_node_id := by rw [ht2next]; omega
    have hbl : buildLevel t2 (chunksOf ids) =
        (writeNodeT { t2 with next_node_id := t2.next_node_id + 1 } t2.next_node_id
          (mkInternal t2 ids), [t2.next_node_id]) := by
      rw [hchunkids]
      exact buildLevel_single t2 ids ht2next0
    set t3 := writeNodeT { t2 with next_node_id := t2.next_node_id + 1 } t2.next_node_id
      (mkInternal t2 ids) with ht3def
    have hsteps : buildLevelsAux ids.length t2 ids = (t3, [t2.next_node_id]) := by
      have hfl : ids.length = (L - 1) + 1 := by omega
      rw [hfl, buildLevelsAux_step _ _ _ (by omega), hbl]
      exact buildLevelsAux_le_one _ _ _ (by simp)
    have hfinal : bulkLoad t0 S = (true, { t3 with root_id := t2.next_node_id }) := by
      rw [bulkLoad_as_phases t0 S hS]
      dsimp only
      rw [← hsorteddef, ← hcsdef, ← hr1def, a1, ← ht2def, hsteps]
    have ht3next : t3.next_node_id = base + (L : Int) + 1 := by
      rw [ht3def, writeNodeT_next]
      have : ({ t2 with next_node_id := t2.next_node_id + 1 } : BPTree).next_node_id =
          t2.next_node_id + 1 := rfl
      rw [this, ht2next]
    have hleafread3 : ∀ j, j < L → readNodeT t3 (base + (j : Int)) =
        some (if j + 1 < L then
          { mkLeaf (cs.getD j []) with next_leaf := base + (j : Int) + 1 }
          else mkLeaf (cs.getD j [])) := by
      intro j hj
      rw [ht3def]
      refine readNodeT_writeNodeT_ne _ _ ?_ ?_
      · rw [ht2next]; omega
      · rw [readNodeT_setNext]
        exact hleafread j hj
    have hrootread : readNodeT t3 t2.next_node_id = some (mkInternal t2 ids) := by
      rw [ht3def]
      exact readNodeT_writeNodeT_self _ _ _ ht2next0
    refine ⟨by rw [hfinal], ?_, ?_, ?_, ?_⟩
    · rw [hfinal, if_neg hL1]
      have : ({ t3 with root_id := t2.next_node_id } : BPTree).root_id =
          t2.next_node_id := rfl
      rw [this, ht2next]
    · rw [hfinal, if_neg hL1]
      have : ({ t3 with root_id := t2.next_node_id } : BPTree).next_node_id =
          t3.next_node_id := rfl
      rw [this, ht3next]
    · intro j hj
      have hchunkj : cs.getD j [] ∈ cs := getD_mem cs [] (by omega)
      obtain ⟨hcjne, hcjle⟩ := hchunk (cs.getD j []) hchunkj
      obtain ⟨m1, m2, m3, m4, m5, m6, m7⟩ := mkLeaf_spec (cs.getD j []) hcjle
      have hrd : readNodeT { t3 with root_id := t2.next_node_id } (base + (j : Int)) =
          readNodeT t3 (base + (j : Int)) := readNodeT_setRoot _ _ _
      by_cases hnext : j + 1 < L
      · refine ⟨{ mkLeaf (cs.getD j []) with next_leaf := base + (j : Int) + 1 },
          ?_, m4, m7, mkLeaf_firstKey _ hcjne hcjle, ?_⟩
        · rw [hfinal]
          rw [hrd, hleafread3 j hj, if_pos hnext]
        · rw [if_pos hnext]
      · refine ⟨mkLeaf (cs.getD j []), ?_, m4, m7, mkLeaf_firstKey _ hcjne hcjle, ?_⟩
        · rw [hfinal]
          rw [hrd, hleafread3 j hj, if_neg hnext]
        · rw [if_neg hnext]
          exact m5
    · intro _
      refine ⟨mkInternal t2 ids, ?_, (mkInternal_fields t2 ids).1, ?_, ?_, ?_⟩
      · rw [hfinal]
        have hrd : readNodeT { t3 with root_id := t2.next_node_id } (base + (L : Int)) =
            readNodeT t3 (base + (L : Int)) := readNodeT_setRoot _ _ _
        rw [hrd, ← ht2next]
        exact hrootread
      · rw [(mkInternal_fields t2 ids).2.1, hidslen]
      · intro j hj
        rw [mkInternal_children t2 ids j (by omega) (by omega)]
        have : ids.getD j (-1) = base + (j : Int) := by
          rw [hidsdef]
          exact getD_map_range _ _ _ _ (by omega)
        exact this
      · rw [(mkInternal_fields t2 ids).2.1, hidslen]
        have hkeys : (mkInternal t2 ids).keys = (List.range 101).map (fun m =>
            if m + 1 < ids.length
            then ((readNodeT t2 (ids.getD (m + 1) (-1))).getD blankNode).keys.getD 0 0
            else 0) := rfl
        rw [hkeys, ← List.map_take, List.take_range, min_eq_left (by omega)]
        apply List.map_congr_left
        intro m hm
        have hmlt : m < L - 1 := List.mem_range.mp hm
        rw [if_pos (show m + 1 < ids.length by omega)]
        have hid : ids.getD (m + 1) (-1) = base + ((m + 1 : Nat) : Int) := by
          rw [hidsdef]
          exact getD_map_range _ _ _ _ (by omega)
        rw [hid]
        have hrd := hleafread (m + 1) (by omega)
        rw [hrd]
        have hchm : cs.getD (m + 1) [] ∈ cs := getD_mem cs [] (by omega)
        obtain ⟨hcmne, hcmle⟩ := hchunk (cs.getD (m + 1) []) hchm
        by_cases hc : m + 1 + 1 < L
        · rw [if_pos hc]
          simp only [Option.getD_some]
          exact mkLeaf_firstKey _ hcmne hcmle
        · rw [if_neg hc]
          simp only [Option.getD_some]
          exact mkLeaf_firstKey _ hcmne hcmle

end BPTree

namespace BPTree

/-! ### Ordering facts about the chunks of a sorted list -/

theorem sorted_map_fst_of_pairLe {l : List (Int × RecordPointer)}
    (h : List.Sorted pairLe l) : List.Sorted (· ≤ ·) (l.map Prod.fst) :=
  List.Pairwise.map Prod.fst (fun {_ _} hab => pairLe_key hab) h

theorem chunk_sorted {l : List (Int × RecordPointer)} (h : List.Sorted pairLe l)
    {m : Nat} (hm : m < (chunksOf l).length) :
    List.Sorted pairLe ((chunksOf l).getD m []) := by
  have hmem : (chunksOf l).getD m [] ∈ chunksOf l := getD_mem _ _ hm
  have hsub := List.sublist_flatten_of_mem hmem
  rw [chunksOf_flatten] at hsub
  exact h.sublist hsub

theorem sorted_head_le {c : List (Int × RecordPointer)} (hs : List.Sorted pairLe c) :
    ∀ e ∈ c, firstKeyOfChunk c ≤ e.1 := by
  intro e he
  cases c with
  | nil => simp at he
  | cons x xs =>
    have hfk : firstKeyOfChunk (x :: xs) = x.1 := by simp [firstKeyOfChunk]
    rw [hfk]
    rcases List.mem_cons.mp he with rfl | he
    · exact le_refl _
    · exact pairLe_key ((List.sorted_cons.mp hs).1 e he)

theorem chunk_first_le {l : List (Int × RecordPointer)} (h : List.Sorted pairLe l)
    {m : Nat} (hm : m < (chunksOf l).length) :
    ∀ e ∈ (chunksOf l).getD m [], firstKeyOfChunk ((chunksOf l).getD m []) ≤ e.1 :=
  sorted_head_le (chunk_sorted h hm)

theorem getD_cons_drop {α} (cs : List α) (d : α) {i : Nat} (hi : i < cs.length) :
    cs.drop i = cs.getD i d :: cs.drop (i + 1) := by
  have hd : cs.getD i d = cs[i] := by
    rw [List.getD_eq_getElem?_getD, List.getElem?_eq_getElem hi]
    rfl
  rw [hd]
  exact List.drop_eq_getElem_cons hi

theorem take_flatten_le_next_first {l : List (Int × RecordPointer)}
    (h : List.Sorted pairLe l) {i : Nat} (hi : i < (chunksOf l).length) :
    ∀ e ∈ ((chunksOf l).take i).flatten, e.1 ≤ firstKeyOfChunk ((chunksOf l).getD i []) := by
  intro e he
  set cs := chunksOf l with hcs
  have hflat : (cs.take i).flatten ++ (cs.drop i).flatten = l := by
    rw [← List.flatten_append, List.take_append_drop, hcs, chunksOf_flatten]
  have hsorted : List.Sorted pairLe ((cs.take i).flatten ++ (cs.drop i).flatten) := by
    rw [hflat]; exact h
  have hdropcons : cs.drop i = cs.getD i [] :: cs.drop (i + 1) := getD_cons_drop cs [] hi
  have hne : cs.getD i [] ≠ [] := chunksOf_mem_ne_nil (hcs ▸ getD_mem cs [] hi)
  cases hc : cs.getD i [] with
  | nil => exact absurd hc hne
  | cons x xs =>
    have hxmem : x ∈ (cs.drop i).flatten := by
      rw [hdropcons, hc]
      simp
    have hple : pairLe e x := flatten_sorted_cross hsorted e he x hxmem
    have hfk2 : firstKeyOfChunk (x :: xs) = x.1 := by simp [firstKeyOfChunk]
    rw [hfk2]
    exact pairLe_key hple

/-! ### branchIndex -/

theorem branchIndex_le (n : BPTreeNode) (k : Int) : branchIndex n k ≤ n.num_keys := by
  unfold branchIndex
  calc ((n.keys.take n.num_keys).takeWhile (fun x => decide (x ≤ k))).length
      ≤ (n.keys.take n.num_keys).length := takeWhile_length_le _ _
    _ ≤ n.num_keys := by simp

theorem branchIndex_prefix_le (n : BPTreeNode) (k : Int) {m : Nat}
    (hm : m < branchIndex n k) : (n.keys.take n.num_keys).getD m 0 ≤ k := by
  have := takeWhile_pred_of_lt (fun x => decide (x ≤ k)) 0 (n.keys.take n.num_keys) m hm
  exact of_decide_eq_true this

/-! ### Leaf chains below a bulk-loaded root -/

theorem LeafChain_from_uniform (t : BPTree) (base : Int)
    (cs : List (List (Int × RecordPointer))) (i : Nat) (hi : i < cs.length)
    (F : ∀ j, j < cs.length → ∃ n, readNodeT t (base + (j : Int)) = some n ∧
      n.is_leaf = true ∧ nodeEntries n = encChunk (cs.getD j []) ∧
      n.next_leaf = (if j + 1 < cs.length then base + (j : Int) + 1 else -1)) :
    LeafChain t (base + (i : Int)) ((cs.drop i).map encChunk) := by
  have hmain := LeafChain_build
    ((List.range (cs.length - i)).map (fun j : Nat => base + (i : Int) + (j : Int)))
    ((cs.drop i).map encChunk) t (by simp)
    (by
      intro j hj hj'
      rw [length_map_range] at hj
      obtain ⟨n, h1, h2, h3, h4⟩ := F (i + j) (by omega)
      refine ⟨n, ?_, h2, ?_, ?_⟩
      · rw [get_map_range]
        have : base + ((i + j : Nat) : Int) = base + (i : Int) + (j : Int) := by
          push_cast; ring
        rw [← this]
        exact h1
      · rw [h3]
        have hget : ((cs.drop i).map encChunk).get ⟨j, hj'⟩ = encChunk cs[i + j] := by
          simp [List.get_eq_getElem, List.getElem_map, List.getElem_drop]
        rw [hget]
        congr 1
        rw [List.getD_eq_getElem?_getD, List.getElem?_eq_getElem (by omega)]
        rfl
      · rw [h4]
        by_cases hc : i + j + 1 < cs.length
        · rw [if_pos hc, dif_pos (by rw [length_map_range]; omega)]
          rw [get_map_range]
          push_cast
          ring
        · rw [if_neg hc, dif_neg (by rw [length_map_range]; omega)])
  have hhead : ((List.range (cs.length - i)).map
      (fun j : Nat => base + (i : Int) + (j : Int))).headD (-1) = base + (i : Int) := by
    have hpos : 0 < cs.length - i := by omega
    cases hr : List.range (cs.length - i) with
    | nil =>
      have := List.length_range (cs.length - i)
      rw [hr] at this
      simp at this
      omega
    | cons a tl =>
      have ha : a = 0 := by
        have := List.range_succ_eq_map (cs.length - i - 1)
        rw [show cs.length - i = cs.length - i - 1 + 1 by omega, this] at hr
        exact (List.cons.injEq _ _ _ _ ▸ hr).1.symm ▸ rfl
      subst ha
      simp
  rw [hhead] at hmain
  exact hmain

end BPTree

namespace BPTree

/-- Where `findLeaf` lands on a bulk-loaded tree of at most two levels:
some leaf `base + i`, with every entry of the chunks left of `i` having
key at most `k`. -/
theorem findLeaf_bulkLoad (t0 : BPTree) (S : List (Int × RecordPointer)) (hS : S ≠ [])
    (hlen : S.length ≤ order * order) (hbase : 0 ≤ t0.next_node_id) (k : Int) :
    ∃ i, i < (chunksOf (sortPairs S)).length ∧
      findLeaf (bulkLoad t0 S).2 k = t0.next_node_id + (i : Int) ∧
      (∀ e ∈ ((chunksOf (sortPairs S)).take i).flatten, e.1 ≤ k) := by
  obtain ⟨b1, b2, b3, b4, b5⟩ := bulkLoad_spec t0 S hS hlen hbase
  set t := (bulkLoad t0 S).2 with htdef
  set base := t0.next_node_id with hbdef
  set cs := chunksOf (sortPairs S) with hcsdef
  set L := cs.length with hLdef
  have hLpos : 0 < L :=
    List.length_pos.mpr (fun hc => sortPairs_ne_nil hS (chunksOf_eq_nil_iff.mp hc))
  by_cases hL1 : L = 1
  · refine ⟨0, by omega, ?_, by simp⟩
    obtain ⟨n, hn1, hn2, _, _, _⟩ := b4 0 (by omega)
    have hz : base + ((0 : Nat) : Int) = base := by simp
    rw [hz] at hn1
    rw [if_pos hL1] at b2
    unfold findLeaf
    rw [b2, if_neg (by omega : ¬(base = -1))]
    rw [findLeafAux, hn1]
    dsimp only
    rw [if_pos hn2]
    exact hz.symm
  · have hL2 : 2 ≤ L := by omega
    obtain ⟨root, hrr, hri, hrn, hrc, hrk⟩ := b5 hL2
    rw [if_neg hL1] at b2
    set i := branchIndex root k with hidef
    have hile : i ≤ L - 1 := hrn ▸ branchIndex_le root k
    have hiL : i < L := by omega
    refine ⟨i, hiL, ?_, ?_⟩
    · have hlen1 : 1 ≤ t.nodes.length := by
        have := (readNodeT_lt_length hrr).2
        omega
      obtain ⟨f', hf'⟩ : ∃ f', t.nodes.length = f' + 1 := ⟨t.nodes.length - 1, by omega⟩
      obtain ⟨n, hn1, hn2, _, _, _⟩ := b4 i hiL
      unfold findLeaf
      rw [b2, if_neg (by omega : ¬(base + (L : Int) = -1))]
      rw [findLeafAux, hrr]
      dsimp only
      rw [if_neg (by rw [hri]; exact Bool.false_ne_true), ← hidef]
      rw [hrc i hiL, hf', findLeafAux, hn1]
      dsimp only
      rw [if_pos hn2]
    · intro e he
      by_cases hi0 : i = 0
      · rw [hi0] at he; simp at he
      · have hsep : (root.keys.take root.num_keys).getD (i - 1) 0 ≤ k :=
          branchIndex_prefix_le root k (by omega)
        rw [hrk] at hsep
        have hgetD : ((List.range (L - 1)).map
            (fun m => firstKeyOfChunk (cs.getD (m + 1) []))).getD (i - 1) 0 =
            firstKeyOfChunk (cs.getD i []) := by
          rw [getD_map_range _ _ _ _ (by omega)]
          congr 2
          omega
        rw [hgetD] at hsep
        have hfirst := take_flatten_le_next_first (sortPairs_sorted S) (l := sortPairs S)
          (i := i) hiL
        exact le_trans (hfirst e he) hsep

end BPTree

theorem intOfNat_tdiv (a b : Nat) : ((a : Int)).tdiv (b : Int) = ((a / b : Nat) : Int) := rfl

theorem intOfNat_tmod (a b : Nat) : ((a : Int)).tmod (b : Int) = ((a % b : Nat) : Int) := rfl

theorem decode_encode {p : RecordPointer} (h : okPtr p) : decodePtr (encodePtr p) = p := by
  obtain ⟨h1, h2, h3⟩ := h
  cases p with
  | mk B R =>
    dsimp only at h1 h2 h3
    obtain ⟨m, rfl⟩ := Int.eq_ofNat_of_zero_le h1
    obtain ⟨n, rfl⟩ := Int.eq_ofNat_of_zero_le h2
    unfold decodePtr encodePtr
    dsimp only
    have hcast : ((m : Int) * 10000 + (n : Int)) = ((m * 10000 + n : Nat) : Int) := by
      push_cast; ring
    have h10 : ((10000 : Int)) = ((10000 : Nat) : Int) := rfl
    rw [hcast, h10, intOfNat_tdiv, intOfNat_tmod]
    have hn10 : n < 10000 := by exact_mod_cast h3
    simp only [RecordPointer.mk.injEq, Nat.cast_inj]
    constructor <;> omega

theorem encChunk_flatten (cs : List (List (Int × RecordPointer))) :
    (cs.map encChunk).flatten = encChunk cs.flatten := by
  induction cs with
  | nil => rfl
  | cons c cs ih => simp [encChunk, ih]

theorem encChunk_map_fst (l : List (Int × RecordPointer)) :
    (encChunk l).map Prod.fst = l.map Prod.fst := by
  unfold encChunk
  rw [List.map_map]
  exact List.map_congr_left (fun e _ => rfl)

theorem encChunk_filter_fst (p : Int → Bool) (l : List (Int × RecordPointer)) :
    (encChunk l).filter (fun e => p e.1) = encChunk (l.filter (fun e => p e.1)) := by
  induction l with
  | nil => rfl
  | cons e l ih =>
    by_cases hp : p e.1
    · simp only [encChunk, List.map_cons, List.filter_cons] at *
      simp [hp, ih]
    · simp only [encChunk, List.map_cons, List.filter_cons] at *
      simp [hp, ih]

theorem encChunk_map_snd_decode (l : List (Int × RecordPointer))
    (h : ∀ e ∈ l, okPtr e.2) :
    (encChunk l).map (fun e => decodePtr e.2) = l.map Prod.snd := by
  induction l with
  | nil => rfl
  | cons e l ih =>
    simp only [encChunk, List.map_cons]
    rw [show decodePtr (e.1, encodePtr e.2).2 = e.2 from decode_encode (h e (by simp))]
    have := ih (fun x hx => h x (by simp [hx]))
    simp only [encChunk] at this
    rw [this]

theorem encChunk_map_decEntry (l : List (Int × RecordPointer))
    (h : ∀ e ∈ l, okPtr e.2) :
    (encChunk l).map decEntry = l := by
  induction l with
  | nil => rfl
  | cons e l ih =>
    simp only [encChunk, List.map_cons]
    have hd : decEntry (e.1, encodePtr e.2) = e := by
      unfold decEntry
      rw [show (e.1, encodePtr e.2).2 = encodePtr e.2 from rfl,
        decode_encode (h e (by simp))]
    have := ih (fun x hx => h x (by simp [hx]))
    simp only [encChunk] at this
    rw [hd, this]

theorem encChunk_ne_nil {l : List (Int × RecordPointer)} (h : l ≠ []) : encChunk l ≠ [] := by
  cases l with
  | nil => exact absurd rfl h
  | cons e l => simp [encChunk]

namespace BPTree

theorem flatten_drop_sublist_sorted (S : List (Int × RecordPointer)) (i : Nat) :
    List.Sublist (((chunksOf (sortPairs S)).drop i).flatten) (sortPairs S) := by
  have h1 : ((chunksOf (sortPairs S)).take i).flatten ++
      ((chunksOf (sortPairs S)).drop i).flatten = sortPairs S := by
    rw [← List.flatten_append, List.take_append_drop, chunksOf_flatten]
  nth_rewrite 2 [← h1]
  exact List.sublist_append_right _ _

theorem sorted_fst_flatten_drop (S : List (Int × RecordPointer)) (i : Nat) :
    List.Sorted (· ≤ ·)
      (((((chunksOf (sortPairs S)).drop i).map encChunk).flatten).map Prod.fst) := by
  rw [encChunk_flatten, encChunk_map_fst]
  exact (sorted_map_fst_of_pairLe (sortPairs_sorted S)).sublist
    ((flatten_drop_sublist_sorted S i).map Prod.fst)

theorem bulkLoad_nodes_ge (t0 : BPTree) (S : List (Int × RecordPointer)) (hS : S ≠ [])
    (hlen : S.length ≤ order * order) (hbase : 0 ≤ t0.next_node_id) :
    (chunksOf (sortPairs S)).length ≤ (bulkLoad t0 S).2.nodes.length := by
  obtain ⟨_, _, _, b4, _⟩ := bulkLoad_spec t0 S hS hlen hbase
  have hLpos : 0 < (chunksOf (sortPairs S)).length :=
    List.length_pos.mpr (fun hc => sortPairs_ne_nil hS (chunksOf_eq_nil_iff.mp hc))
  obtain ⟨n, hn1, _⟩ := b4 ((chunksOf (sortPairs S)).length - 1) (by omega)
  have := readNodeT_lt_length hn1
  omega

end BPTree

namespace BPTree

theorem flatten_take_sublist_sorted (S : List (Int × RecordPointer)) (i : Nat) :
    List.Sublist (((chunksOf (sortPairs S)).take i).flatten) (sortPairs S) := by
  have h1 : ((chunksOf (sortPairs S)).take i).flatten ++
      ((chunksOf (sortPairs S)).drop i).flatten = sortPairs S := by
    rw [← List.flatten_append, List.take_append_drop, chunksOf_flatten]
  nth_rewrite 2 [← h1]
  exact List.sublist_append_left _ _

/-- With strictly positive keys, `findLeaf 0` lands on the leftmost
leaf of a bulk-loaded tree. -/
theorem findLeaf_zero_bulkLoad (t0 : BPTree) (S : List (Int × RecordPointer)) (hS : S ≠ [])
    (hlen : S.length ≤ order * order) (hbase : 0 ≤ t0.next_node_id)
    (hpos : ∀ e ∈ S, 0 < e.1) :
    findLeaf (bulkLoad t0 S).2 0 = t0.next_node_id := by
  obtain ⟨i, hiL, hfl, hpre⟩ := findLeaf_bulkLoad t0 S hS hlen hbase 0
  suffices hi0 : i = 0 by
    rw [hfl, hi0]
    simp
  by_contra hi0
  set cs := chunksOf (sortPairs S) with hcsdef
  have h0L : 0 < cs.length := by omega
  have hc0ne : cs.getD 0 [] ≠ [] := chunksOf_mem_ne_nil (getD_mem _ _ h0L)
  obtain ⟨e, he⟩ := List.exists_mem_of_ne_nil _ hc0ne
  have hmemtake : cs.getD 0 [] ∈ cs.take i := by
    have hitake : 0 < (cs.take i).length := by simp; omega
    have hg : cs.getD 0 [] = cs[0] := by
      rw [List.getD_eq_getElem?_getD, List.getElem?_eq_getElem h0L]
      rfl
    have ht : (cs.take i)[0] = cs[0] := List.getElem_take cs
    rw [hg, ← ht]
    exact List.getElem_mem _
  have hflat : e ∈ (cs.take i).flatten := List.mem_flatten.mpr ⟨cs.getD 0 [], hmemtake, he⟩
  have hle : e.1 ≤ 0 := hpre e hflat
  have hmemS : e ∈ S := by
    have h1 : e ∈ sortPairs S := (flatten_take_sublist_sorted S i).subset hflat
    exact mem_sortPairs.mp h1
  have := hpos e hmemS
  omega

/-- `rangeSearch` on a bulk-loaded tree of at most two levels: when
`kmin` does not occur as a key, the result is exactly the pointers of
the in-range entries, in sorted order. -/
theorem rangeSearch_bulkLoad (t0 : BPTree) (S : List (Int × RecordPointer)) (hS : S ≠ [])
    (hlen : S.length ≤ order * order) (hbase : 0 ≤ t0.next_node_id) (kmin kmax : Int)
    (hptr : ∀ e ∈ S, okPtr e.2) (hne : ∀ e ∈ S, e.1 ≠ kmin) :
    rangeSearch (bulkLoad t0 S).2 kmin kmax =
      ((sortPairs S).filter
        (fun e => decide (kmin ≤ e.1) && decide (e.1 ≤ kmax))).map Prod.snd := by
  obtain ⟨b1, b2, b3, b4, b5⟩ := bulkLoad_spec t0 S hS hlen hbase
  set t := (bulkLoad t0 S).2 with htdef
  set base := t0.next_node_id with hbdef
  set cs := chunksOf (sortPairs S) with hcsdef
  obtain ⟨i, hiL, hfl, hpre⟩ := findLeaf_bulkLoad t0 S hS hlen hbase kmin
  have hchain : LeafChain t (base + (i : Int)) ((cs.drop i).map encChunk) :=
    LeafChain_from_uniform t base cs i hiL
      (fun j hj => by
        obtain ⟨n, x1, x2, x3, _, x5⟩ := b4 j hj
        exact ⟨n, x1, x2, x3, x5⟩)
  have hLlen : cs.length ≤ t.nodes.length := bulkLoad_nodes_ge t0 S hS hlen hbase
  have hfuel : ((cs.drop i).map encChunk).length < t.nodes.length + 1 := by
    rw [List.length_map, List.length_drop]
    omega
  have hnonempty : ∀ c ∈ (cs.drop i).map encChunk, c ≠ [] := by
    intro c hc
    obtain ⟨c', hc', rfl⟩ := List.mem_map.mp hc
    exact encChunk_ne_nil (chunksOf_mem_ne_nil (List.mem_of_mem_drop hc'))
  have hsorted := sorted_fst_flatten_drop S i
  unfold rangeSearch
  rw [hfl]
  rw [rangeSearchAux_chain t kmin kmax _ _ _ hchain hfuel hnonempty hsorted]
  rw [encChunk_flatten]
  rw [encChunk_filter_fst (fun x => decide (kmin ≤ x) && decide (x ≤ kmax))]
  rw [encChunk_map_snd_decode _ (fun e he => hptr e
    (mem_sortPairs.mp ((flatten_drop_sublist_sorted S i).subset (List.mem_of_mem_filter he))))]
  have h1 : (cs.take i).flatten ++ (cs.drop i).flatten = sortPairs S := by
    rw [← List.flatten_append, List.take_append_drop, hcsdef, chunksOf_flatten]
  nth_rewrite 2 [← h1]
  rw [List.filter_append]
  have hnil : (cs.take i).flatten.filter
      (fun e => decide (kmin ≤ e.1) && decide (e.1 ≤ kmax)) = [] := by
    rw [List.filter_eq_nil_iff]
    intro e he
    have hle : e.1 ≤ kmin := hpre e he
    have hneq : e.1 ≠ kmin := hne e
      (mem_sortPairs.mp ((flatten_take_sublist_sorted S i).subset he))
    simp only [Bool.and_eq_true, decide_eq_true_eq, not_and]
    intro hcontra
    omega
  rw [hnil, List.nil_append]

end BPTree

namespace BPTree

/-- With strictly positive keys, the leaf chain of a bulk-loaded tree,
scanned from `findLeaf 0`, lists exactly the sorted input entries. -/
theorem treeEntries_bulkLoad (t0 : BPTree) (S : List (Int × RecordPointer)) (hS : S ≠ [])
    (hlen : S.length ≤ order * order) (hbase : 0 ≤ t0.next_node_id)
    (hpos : ∀ e ∈ S, 0 < e.1) (hptr : ∀ e ∈ S, okPtr e.2) :
    treeEntries (bulkLoad t0 S).2 = sortPairs S := by
  obtain ⟨b1, b2, b3, b4, b5⟩ := bulkLoad_spec t0 S hS hlen hbase
  set t := (bulkLoad t0 S).2 with htdef
  set base := t0.next_node_id with hbdef
  set cs := chunksOf (sortPairs S) with hcsdef
  have hLpos : 0 < cs.length :=
    List.length_pos.mpr (fun hc => sortPairs_ne_nil hS (chunksOf_eq_nil_iff.mp hc))
  have hchain0 : LeafChain t base (cs.map encChunk) := by
    have h := LeafChain_from_uniform t base cs 0 hLpos
      (fun j hj => by
        obtain ⟨n, x1, x2, x3, _, x5⟩ := b4 j hj
        exact ⟨n, x1, x2, x3, x5⟩)
    simpa using h
  have hLlen : cs.length ≤ t.nodes.length := bulkLoad_nodes_ge t0 S hS hlen hbase
  have hfuel : (cs.map encChunk).length < t.nodes.length + 1 := by
    rw [List.length_map]
    omega
  unfold treeEntries
  rw [findLeaf_zero_bulkLoad t0 S hS hlen hbase hpos]
  rw [chainEntriesAux_chain t _ _ _ hchain0 hfuel]
  rw [encChunk_flatten, hcsdef, chunksOf_flatten]
  exact encChunk_map_decEntry _ (fun e he => hptr e (mem_sortPairs.mp he))

/-- With strictly positive keys, `removeRange`'s survivor scan on a
bulk-loaded tree collects exactly the out-of-range entries, in sorted
order. -/
theorem collectSurvivors_bulkLoad (t0 : BPTree) (S : List (Int × RecordPointer)) (hS : S ≠ [])
    (hlen : S.length ≤ order * order) (hbase : 0 ≤ t0.next_node_id) (kmin kmax : Int)
    (hpos : ∀ e ∈ S, 0 < e.1) (hptr : ∀ e ∈ S, okPtr e.2) :
    collectSurvivors (bulkLoad t0 S).2 kmin kmax =
      (sortPairs S).filter (fun e => decide (e.1 < kmin) || decide (kmax < e.1)) := by
  obtain ⟨b1, b2, b3, b4, b5⟩ := bulkLoad_spec t0 S hS hlen hbase
  set t := (bulkLoad t0 S).2 with htdef
  set base := t0.next_node_id with hbdef
  set cs := chunksOf (sortPairs S) with hcsdef
  have hLpos : 0 < cs.length :=
    List.length_pos.mpr (fun hc => sortPairs_ne_nil hS (chunksOf_eq_nil_iff.mp hc))
  have hchain0 : LeafChain t base (cs.map encChunk) := by
    have h := LeafChain_from_uniform t base cs 0 hLpos
      (fun j hj => by
        obtain ⟨n, x1, x2, x3, _, x5⟩ := b4 j hj
        exact ⟨n, x1, x2, x3, x5⟩)
    simpa using h
  have hLlen : cs.length ≤ t.nodes.length := bulkLoad_nodes_ge t0 S hS hlen hbase
  have hfuel : (cs.map encChunk).length < t.nodes.length + 1 := by
    rw [List.length_map]
    omega
  unfold collectSurvivors
  rw [findLeaf_zero_bulkLoad t0 S hS hlen hbase hpos]
  rw [collectSurvAux_chain t kmin kmax _ _ _ hchain0 hfuel]
  rw [encChunk_flatten, hcsdef, chunksOf_flatten]
  rw [encChunk_filter_fst (fun x => decide (x < kmin) || decide (kmax < x))]
  exact encChunk_map_decEntry _ (fun e he => hptr e (mem_sortPairs.mp (List.mem_of_mem_filter he)))

end BPTree

namespace BPTree

/-! ### Traversals ignore `next_node_id` -/

theorem findLeafAux_setNext (t : BPTree) (x key : Int) :
    ∀ (fuel : Nat) (id : Int),
      findLeafAux { t with next_node_id := x } key fuel id = findLeafAux t key fuel id := by
  intro fuel
  induction fuel with
  | zero => intro id; rfl
  | succ f ih =>
    intro id
    simp only [findLeafAux, readNodeT_setNext]
    cases h : readNodeT t id with
    | none => rfl
    | some n =>
      dsimp only
      by_cases hl : n.is_leaf
      · rw [if_pos hl, if_pos hl]
      · rw [if_neg hl, if_neg hl, ih]

theorem findLeaf_setNext (t : BPTree) (x key : Int) :
    findLeaf { t with next_node_id := x } key = findLeaf t key := by
  unfold findLeaf
  dsimp only
  rw [findLeafAux_setNext]

theorem rangeSearchAux_setNext (t : BPTree) (x kmin kmax : Int) :
    ∀ (fuel : Nat) (id : Int),
      rangeSearchAux { t with next_node_id := x } kmin kmax fuel id =
        rangeSearchAux t kmin kmax fuel id := by
  intro fuel
  induction fuel with
  | zero => intro id; rfl
  | succ f ih =>
    intro id
    simp only [rangeSearchAux, readNodeT_setNext]
    cases h : readNodeT t id with
    | none => rfl
    | some n =>
      dsimp only
      by_cases hb : kmax < leafLastKey n
      · rw [if_pos hb, if_pos hb]
      · rw [if_neg hb, if_neg hb, ih]

theorem rangeSearch_setNext (t : BPTree) (x kmin kmax : Int) :
    rangeSearch { t with next_node_id := x } kmin kmax = rangeSearch t kmin kmax := by
  unfold rangeSearch
  dsimp only
  rw [rangeSearchAux_setNext, findLeaf_setNext]

theorem chainEntriesAux_setNext (t : BPTree) (x : Int) :
    ∀ (fuel : Nat) (id : Int),
      chainEntriesAux { t with next_node_id := x } fuel id = chainEntriesAux t fuel id := by
  intro fuel
  induction fuel with
  | zero => intro id; rfl
  | succ f ih =>
    intro id
    simp only [chainEntriesAux, readNodeT_setNext]
    cases h : readNodeT t id with
    | none => rfl
    | some n =>
      dsimp only
      rw [ih]

theorem treeEntries_setNext (t : BPTree) (x : Int) :
    treeEntries { t with next_node_id := x } = treeEntries t := by
  unfold treeEntries
  dsimp only
  rw [chainEntriesAux_setNext, findLeaf_setNext]

theorem sortPairs_eq_of_perm {l l' : List (Int × RecordPointer)} (h : List.Perm l l') :
    sortPairs l = sortPairs l' :=
  List.eq_of_perm_of_sorted
    (((sortPairs_perm l).trans h).trans (sortPairs_perm l').symm)
    (sortPairs_sorted l) (sortPairs_sorted l')

end BPTree

namespace BPTree

theorem rangeSearch_root_neg (t : BPTree) (kmin kmax : Int) (h : t.root_id = -1) :
    rangeSearch t kmin kmax = [] := by
  unfold rangeSearch findLeaf
  rw [if_pos h]
  simp [rangeSearchAux]

theorem treeEntries_root_neg (t : BPTree) (h : t.root_id = -1) :
    treeEntries t = [] := by
  unfold treeEntries findLeaf
  rw [if_pos h]
  simp [chainEntriesAux]

theorem getNumLevels_root_neg (t : BPTree) (h : t.root_id = -1) :
    getNumLevels t = 0 := by
  unfold getNumLevels
  rw [if_pos h]

/-- C1 (amended): on a freshly bulk-loaded tree of at most two levels
whose keys are strictly positive and none of which equals `min_key`,
`removeRange` returns the number of in-range entries, afterwards
`rangeSearch(min_key, max_key)` is empty, the surviving entries are
exactly the out-of-range ones (in sorted order), and when nothing
survives the root is `-1` and `getNumLevels` is `0`. -/
theorem removeRange_bulkLoad_spec (t0 : BPTree) (S : List (Int × RecordPointer))
    (kmin kmax : Int) (hS : S ≠ []) (hlen : S.length ≤ order * order)
    (hbase : 0 ≤ t0.next_node_id)
    (hpos : ∀ e ∈ S, 0 < e.1) (hptr : ∀ e ∈ S, okPtr e.2)
    (hne : ∀ e ∈ S, e.1 ≠ kmin) (hmm : kmin ≤ kmax) :
    (removeRange (bulkLoad t0 S).2 kmin kmax).1 =
      (S.filter (fun e => decide (kmin ≤ e.1) && decide (e.1 ≤ kmax))).length ∧
    rangeSearch (removeRange (bulkLoad t0 S).2 kmin kmax).2 kmin kmax = [] ∧
    treeEntries (removeRange (bulkLoad t0 S).2 kmin kmax).2 =
      sortPairs (S.filter (fun e => decide (e.1 < kmin) || decide (kmax < e.1))) ∧
    (S.filter (fun e => decide (e.1 < kmin) || decide (kmax < e.1)) = [] →
      (removeRange (bulkLoad t0 S).2 kmin kmax).2.root_id = -1 ∧
      getNumLevels (removeRange (bulkLoad t0 S).2 kmin kmax).2 = 0) := by
  set t := (bulkLoad t0 S).2 with htdef
  have hrs := rangeSearch_bulkLoad t0 S hS hlen hbase kmin kmax hptr hne
  have hcs := collectSurvivors_bulkLoad t0 S hS hlen hbase kmin kmax hpos hptr
  set surv := (sortPairs S).filter
    (fun e => decide (e.1 < kmin) || decide (kmax < e.1)) with hsurvdef
  have hpermS : List.Perm surv
      (S.filter (fun e => decide (e.1 < kmin) || decide (kmax < e.1))) :=
    (sortPairs_perm S).filter _
  have hsorted_surv : List.Sorted pairLe surv := (sortPairs_sorted S).filter _
  have hsp_surv : sortPairs surv = surv := sortPairs_eq_of_sorted hsorted_surv
  have hcount : (removeRange t kmin kmax).1 =
      (S.filter (fun e => decide (kmin ≤ e.1) && decide (e.1 ≤ kmax))).length := by
    have h1 : (removeRange t kmin kmax).1 = (rangeSearch t kmin kmax).length := by
      simp only [removeRange]
      by_cases hempty : collectSurvivors t kmin kmax = []
      · rw [if_pos hempty]
      · rw [if_neg hempty]
    rw [h1, hrs, List.length_map]
    exact ((sortPairs_perm S).filter _).length_eq
  have hsurvS : sortPairs (S.filter
      (fun e => decide (e.1 < kmin) || decide (kmax < e.1))) = surv := by
    rw [sortPairs_eq_of_perm hpermS.symm, hsp_surv]
  by_cases hempty : surv = []
  · have hRR : removeRange t kmin kmax =
        ((rangeSearch t kmin kmax).length, { t with root_id := -1, next_node_id := 0 }) := by
      simp only [removeRange]
      rw [hcs, if_pos hempty]
    refine ⟨hcount, ?_, ?_, ?_⟩
    · rw [hRR]
      exact rangeSearch_root_neg _ kmin kmax rfl
    · rw [hRR, hsurvS, hempty]
      exact treeEntries_root_neg _ rfl
    · intro _
      rw [hRR]
      exact ⟨rfl, getNumLevels_root_neg _ rfl⟩
  · have hlen' : surv.length ≤ order * order := by
      have h1 : surv.length ≤ (sortPairs S).length := List.length_filter_le _ _
      rw [sortPairs_length] at h1
      omega
    have hpos' : ∀ e ∈ surv, 0 < e.1 := fun e he =>
      hpos e (mem_sortPairs.mp (List.mem_of_mem_filter he))
    have hptr' : ∀ e ∈ surv, okPtr e.2 := fun e he =>
      hptr e (mem_sortPairs.mp (List.mem_of_mem_filter he))
    have hout : ∀ e ∈ surv, e.1 < kmin ∨ kmax < e.1 := by
      intro e he
      have h2 := (List.mem_filter.mp he).2
      simp only [Bool.or_eq_true, decide_eq_true_eq] at h2
      exact h2
    have hne' : ∀ e ∈ surv, e.1 ≠ kmin := by
      intro e he
      rcases hout e he with h | h <;> omega
    have hRR : removeRange t kmin kmax =
        ((rangeSearch t kmin kmax).length,
          { (bulkLoad { t with root_id := -1, next_node_id := 0 } (sortPairs surv)).2 with
              next_node_id := 251 }) := by
      simp only [removeRange]
      rw [hcs, if_neg hempty]
    refine ⟨hcount, ?_, ?_, ?_⟩
    · rw [hRR]
      dsimp only
      rw [hsp_surv, rangeSearch_setNext]
      rw [rangeSearch_bulkLoad _ surv hempty hlen' (le_refl 0) kmin kmax hptr' hne']
      rw [hsp_surv]
      have hnil : surv.filter (fun e => decide (kmin ≤ e.1) && decide (e.1 ≤ kmax)) = [] := by
        rw [List.filter_eq_nil_iff]
        intro e he
        have := hout e he
        simp only [Bool.and_eq_true, decide_eq_true_eq, not_and]
        intro hcontra
        omega
      rw [hnil]
      rfl
    · rw [hRR]
      dsimp only
      rw [hsp_surv, treeEntries_setNext]
      rw [treeEntries_bulkLoad _ surv hempty hlen' (le_refl 0) hpos' hptr']
      rw [hsp_surv, hsurvS]
    · intro hF
      exfalso
      have : surv = [] := List.Perm.eq_nil (hF ▸ hpermS)
      exact hempty this


end BPTree

namespace BPTree

theorem findLeafAux_mem_reach (t : BPTree) (key : Int) :
    ∀ (fuel : Nat) (cur : Int), findLeafAux t key fuel cur ≠ -1 →
      findLeafAux t key fuel cur ∈ reachLeaves t fuel cur := by
  intro fuel
  induction fuel with
  | zero => intro cur h; exact absurd rfl h
  | succ f ih =>
    intro cur
    simp only [findLeafAux, reachLeaves]
    cases hr : readNodeT t cur with
    | none =>
      dsimp only
      intro h
      exact absurd rfl h
    | some n =>
      dsimp only
      by_cases hl : n.is_leaf
      · rw [if_pos hl, if_pos hl]
        intro _
        exact List.mem_singleton.mpr rfl
      · rw [if_neg hl, if_neg hl]
        intro h
        refine List.mem_flatten.mpr
          ⟨reachLeaves t f (n.children.getD (branchIndex n key) (-1)), ?_, ih _ h⟩
        exact List.mem_map.mpr ⟨branchIndex n key,
          List.mem_range.mpr (by have := branchIndex_le n key; omega), rfl⟩

/-- C8: when no descent-reachable leaf of the tree holds an entry with
the given key, `remove` returns `false` and leaves the tree — root id,
allocation counter, and every node page — exactly as it was. -/
theorem remove_missing_key (t : BPTree) (key : Int)
    (habs : ∀ id ∈ treeLeafIds t, ∀ i,
      i < ((readNodeT t id).getD blankNode).num_keys →
      ((readNodeT t id).getD blankNode).keys.getD i 0 ≠ key) :
    remove t key = (false, t) := by
  simp only [remove]
  by_cases hroot : t.root_id = -1
  · rw [if_pos hroot]
  · rw [if_neg hroot]
    by_cases hlf : findLeaf t key = -1
    · rw [if_pos hlf]
    · rw [if_neg hlf]
      cases hr : readNodeT t (findLeaf t key) with
      | none => rfl
      | some leaf =>
        dsimp only
        have hmem : findLeaf t key ∈ treeLeafIds t := by
          unfold treeLeafIds
          have hfl : findLeaf t key = findLeafAux t key (t.nodes.length + 1) t.root_id := by
            unfold findLeaf
            rw [if_neg hroot]
          rw [hfl]
          apply findLeafAux_mem_reach
          rw [← hfl]
          exact hlf
        have hspec := habs _ hmem
        rw [hr] at hspec
        have hany : ((List.range leaf.num_keys).any
            fun i => decide (leaf.keys.getD i 0 = key)) = false := by
          rw [List.any_eq_false]
          intro i hi
          simp only [decide_eq_true_eq]
          exact hspec i (List.mem_range.mp hi)
        rw [hany]
        rfl

end BPTree

namespace BPTree

/-- C3 (amended): after `bulkLoad` of a non-empty input of at most
`order²` entries needing more than one leaf, the root is the only
internal node, its separators are the first keys of the leaves after the
first, and the keys stored under `children[j]` satisfy the *non-strict*
separator bounds: each is at most every separator at index `m ≥ j` and at
least every separator at index `m < j`. -/
theorem bulkLoad_separator_bounds (t0 : BPTree) (S : List (Int × RecordPointer))
    (hS : S ≠ []) (hlen : S.length ≤ order * order) (hbase : 0 ≤ t0.next_node_id)
    (h2 : 2 ≤ (chunksOf (sortPairs S)).length) :
    ∃ root, readNodeT (bulkLoad t0 S).2 (bulkLoad t0 S).2.root_id = some root ∧
      root.is_leaf = false ∧
      root.num_keys = (chunksOf (sortPairs S)).length - 1 ∧
      ∀ j, j < (chunksOf (sortPairs S)).length → ∃ leaf,
        readNodeT (bulkLoad t0 S).2 (root.children.getD j (-1)) = some leaf ∧
        leaf.is_leaf = true ∧
        ∀ e ∈ nodeEntries leaf,
          (∀ m, j ≤ m → m < root.num_keys → e.1 ≤ root.keys.getD m 0) ∧
          (∀ m, m < j → root.keys.getD m 0 ≤ e.1) := by
  obtain ⟨b1, b2, b3, b4, b5⟩ := bulkLoad_spec t0 S hS hlen hbase
  set t := (bulkLoad t0 S).2 with htdef
  set base := t0.next_node_id with hbdef
  set cs := chunksOf (sortPairs S) with hcsdef
  set L := cs.length with hLdef
  obtain ⟨root, hr, hrleaf, hrnum, hrch, hrkeys⟩ := b5 h2
  have hroot_id : t.root_id = base + (L : Int) := by
    rw [b2, if_neg (by omega)]
  have hkeys : ∀ m, m < root.num_keys →
      root.keys.getD m 0 = firstKeyOfChunk (cs.getD (m + 1) []) := by
    intro m hm
    have htklen : root.num_keys ≤ root.keys.length := by
      have := congrArg List.length hrkeys
      rw [List.length_take, List.length_map, List.length_range] at this
      omega
    have h1 : root.keys.getD m 0 = (root.keys.take root.num_keys).getD m 0 := by
      rw [List.getD_eq_getElem?_getD, List.getD_eq_getElem?_getD, List.getElem?_take]
      rw [if_pos hm]
    rw [h1, hrkeys]
    rw [hrnum] at hm
    exact getD_map_range _ _ _ _ hm
  refine ⟨root, by rw [hroot_id]; exact hr, hrleaf, hrnum, ?_⟩
  intro j hj
  obtain ⟨leaf, hl1, hl2, hl3, _, _⟩ := b4 j hj
  refine ⟨leaf, by rw [hrch j hj]; exact hl1, hl2, ?_⟩
  intro e he
  rw [hl3] at he
  obtain ⟨e', he', rfl⟩ := List.mem_map.mp he
  dsimp only
  constructor
  · intro m hjm hm
    rw [hkeys m hm]
    rw [hrnum] at hm
    apply take_flatten_le_next_first (sortPairs_sorted S)
      (show m + 1 < (chunksOf (sortPairs S)).length by rw [← hcsdef, ← hLdef]; omega)
    refine List.mem_flatten.mpr ⟨cs.getD j [], ?_, he'⟩
    have hjL : j < cs.length := by omega
    have hjtake : j < (cs.take (m + 1)).length := by simp; omega
    have hD : cs.getD j [] = cs[j] := by
      rw [List.getD_eq_getElem?_getD, List.getElem?_eq_getElem hjL]
      rfl
    have ht1 : (cs.take (m + 1))[j] = cs[j] := List.getElem_take cs
    rw [hD, ← ht1]
    exact List.getElem_mem _
  · intro m hmj
    have hmnum : m < root.num_keys := by rw [hrnum]; omega
    rw [hkeys m hmnum]
    have hm1 : m + 1 < cs.length := by rw [hrnum] at hmnum; omega
    have hsub : List.Sorted pairLe ((cs.drop (m + 1)).flatten) :=
      (sortPairs_sorted S).sublist (flatten_drop_sublist_sorted S (m + 1))
    have hmemflat : e' ∈ (cs.drop (m + 1)).flatten := by
      refine List.mem_flatten.mpr ⟨cs.getD j [], ?_, he'⟩
      have hjL2 : j < cs.length := by omega
      have hjdrop : j - (m + 1) < (cs.drop (m + 1)).length := by
        rw [List.length_drop]
        omega
      have hD : cs.getD j [] = cs[j] := by
        rw [List.getD_eq_getElem?_getD, List.getElem?_eq_getElem hjL2]
        rfl
      have ht1 : (cs.drop (m + 1))[j - (m + 1)] = cs[j] := by
        rw [List.getElem_drop]
        congr 1
        omega
      rw [hD, ← ht1]
      exact List.getElem_mem _
    have h3 := sorted_head_le hsub e' hmemflat
    have hdc : cs.drop (m + 1) = cs.getD (m + 1) [] :: cs.drop (m + 2) :=
      getD_cons_drop cs [] hm1
    have hne2 : cs.getD (m + 1) [] ≠ [] := chunksOf_mem_ne_nil (getD_mem _ _ hm1)
    cases hc : cs.getD (m + 1) [] with
    | nil => exact absurd hc hne2
    | cons x xs =>
      rw [hdc, hc] at h3
      simp only [List.flatten_cons, firstKeyOfChunk, List.cons_append] at h3
      simp only [firstKeyOfChunk]
      exact h3

end BPTree

namespace BPTree

/-- C2 (amended): `getNumNodes` is literally `next_node_id`, and
`removeRange` resets the state (`root_id = -1`, `next_node_id = 0`)
before rebuilding; but when at least one entry survives, the rebuild
ends by overwriting `next_node_id` with the hard-coded constant `251`
(`bptree.h` line 1196), so `getNumNodes` afterwards is `251` regardless
of how many nodes the rebuild allocated. -/
theorem getNumNodes_removeRange (t : BPTree) (kmin kmax : Int) :
    getNumNodes t = t.next_node_id ∧
    (collectSurvivors t kmin kmax = [] →
      (removeRange t kmin kmax).2.root_id = -1 ∧
      (removeRange t kmin kmax).2.next_node_id = 0) ∧
    (collectSurvivors t kmin kmax ≠ [] →
      getNumNodes (removeRange t kmin kmax).2 = 251) := by
  refine ⟨rfl, ?_, ?_⟩
  · intro h
    simp only [removeRange]
    rw [if_pos h]
    exact ⟨rfl, rfl⟩
  · intro h
    simp only [removeRange, getNumNodes]
    rw [if_neg h]

end BPTree

namespace BPTree

/-- C5 (amended): `bulkLoad` of at most `order²` entries followed by
`rangeSearch` over an interval that contains every key *with `kmin`
strictly below all of them* returns exactly `|S|` pointers, listed in
ascending key order (the pointer column of the key-sorted input). -/
theorem bulkLoad_rangeSearch_all (t0 : BPTree) (S : List (Int × RecordPointer))
    (hS : S ≠ []) (hlen : S.length ≤ order * order) (hbase : 0 ≤ t0.next_node_id)
    (kmin kmax : Int)
    (hlo : ∀ e ∈ S, kmin < e.1) (hhi : ∀ e ∈ S, e.1 ≤ kmax)
    (hptr : ∀ e ∈ S, okPtr e.2) :
    rangeSearch (bulkLoad t0 S).2 kmin kmax = (sortPairs S).map Prod.snd ∧
    (rangeSearch (bulkLoad t0 S).2 kmin kmax).length = S.length := by
  have h := rangeSearch_bulkLoad t0 S hS hlen hbase kmin kmax hptr
    (fun e he => by have := hlo e he; omega)
  have hfilter : (sortPairs S).filter
      (fun e => decide (kmin ≤ e.1) && decide (e.1 ≤ kmax)) = sortPairs S := by
    rw [List.filter_eq_self]
    intro e he
    have h1 := hlo e (mem_sortPairs.mp he)
    have h2 := hhi e (mem_sortPairs.mp he)
    simp only [Bool.and_eq_true, decide_eq_true_eq]
    omega
  rw [hfilter] at h
  exact ⟨h, by rw [h, List.length_map, sortPairs_length]⟩

end BPTree

namespace Database

/-- C4: when no existing block can take the record (there are no blocks,
or the last block is full or unreadable) and
`num_blocks * 4096 + 8 + 4096` exceeds the 100 MiB cap, `addRecord`
returns `false` and leaves the heap — `num_records`, `num_blocks` and
every block — untouched. -/
theorem addRecord_capacity (db : Database) (r : Record)
    (hfull : db.num_blocks = 0 ∨
      ∀ b, readBlockD db (Int.ofNat (db.num_blocks - 1)) = some b → b.isFull = true)
    (hcap : db.num_blocks * blockSize + 8 + blockSize > maxDatabaseSize) :
    addRecord db r = (false, db) := by
  simp only [addRecord]
  have hstep : (if db.num_blocks > 0 then
      match readBlockD db (Int.ofNat (db.num_blocks - 1)) with
      | some currentBlock =>
        if ¬currentBlock.isFull then
          some (true,
            { (writeBlockD db (Int.ofNat (db.num_blocks - 1)) (currentBlock.addRecord r).2).2 with
                num_records :=
                  (writeBlockD db (Int.ofNat (db.num_blocks - 1))
                    (currentBlock.addRecord r).2).2.num_records + 1 })
        else none
      | none => none
    else none : Option (Bool × Database)) = none := by
    rcases hfull with h0 | hful
    · rw [if_neg (by omega)]
    · by_cases hpos : db.num_blocks > 0
      · rw [if_pos hpos]
        cases hb : readBlockD db (Int.ofNat (db.num_blocks - 1)) with
        | none => rfl
        | some b =>
          dsimp only
          rw [if_neg (by simp [hful b hb])]
      · rw [if_neg hpos]
  rw [hstep]
  rw [if_pos hcap]

end Database

namespace Database

theorem readBlockD_facts {db : Database} {block_id : Int} {b : Block}
    (hread : readBlockD db block_id = some b) :
    0 ≤ block_id ∧ block_id.toNat < db.blocks.length ∧
      db.blocks[block_id.toNat]? = some b := by
  unfold readBlockD at hread
  by_cases hid : 0 ≤ block_id
  · rw [if_pos hid] at hread
    exact ⟨hid, (List.getElem?_eq_some.mp hread).1, hread⟩
  · rw [if_neg hid] at hread
    exact absurd hread (by simp)

/-- C6: on a successful read, `deleteRecord` with an in-range index
returns `true`, overwrites exactly slot `record_index` of that block
with the zero record, and leaves every other slot, the block's
`num_records` count, every other block, and the heap's `num_records` and
`num_blocks` unchanged. -/
theorem deleteRecord_frame (db : Database) (block_id record_index : Int) (b : Block)
    (hread : readBlockD db block_id = some b)
    (hblen : b.data.length = maxRecords)
    (h0 : 0 ≤ record_index) (hlt : record_index < (maxRecords : Int)) :
    ∃ db', deleteRecord db block_id record_index = some (true, db') ∧
      db'.num_records = db.num_records ∧
      db'.num_blocks = db.num_blocks ∧
      (∃ b', readBlockD db' block_id = some b' ∧
        b'.num_records = b.num_records ∧
        b'.data.getD record_index.toNat zeroRecord = zeroRecord ∧
        (∀ j, j ≠ record_index.toNat → b'.data.getD j zeroRecord = b.data.getD j zeroRecord)) ∧
      (∀ id, id ≠ block_id → readBlockD db' id = readBlockD db id) := by
  obtain ⟨hid, hblt, hget⟩ := readBlockD_facts hread
  have h44 : ((recordSize : Nat) : Int) = 44 := by decide
  have h4080 : ((dataSize : Nat) : Int) = 4080 := by decide
  have h92 : ((maxRecords : Nat) : Int) = 92 := by decide
  have hlt92 : record_index < 92 := by omega
  have htn : record_index.toNat < maxRecords := by omega
  have hcond : 0 ≤ record_index * (recordSize : Int) ∧
      record_index * (recordSize : Int) + recordSize ≤ (dataSize : Int) := by
    rw [h44, h4080]
    omega
  set b' : Block := { b with data := b.data.set record_index.toNat zeroRecord } with hb'def
  have hrepl : block_id.toNat + 1 - db.blocks.length = 0 := by omega
  have hwrite : writeBlockD db block_id b' =
      (true, { db with blocks := db.blocks.set block_id.toNat b' }) := by
    unfold writeBlockD
    rw [if_pos hid, hrepl]
    simp
  have hdel : deleteRecord db block_id record_index =
      some (true, { db with blocks := db.blocks.set block_id.toNat b' }) := by
    simp only [deleteRecord]
    rw [hread]
    dsimp only
    rw [if_pos hcond, hwrite]
  refine ⟨_, hdel, rfl, rfl, ⟨b', ?_, rfl, ?_, ?_⟩, ?_⟩
  · unfold readBlockD
    rw [if_pos hid]
    dsimp only
    exact List.getElem?_set_self hblt
  · rw [List.getD_eq_getElem?_getD, List.getElem?_set_self (by omega)]
    rfl
  · intro j hj
    rw [List.getD_eq_getElem?_getD, List.getD_eq_getElem?_getD,
      List.getElem?_set_ne (fun he => hj he.symm)]
  · intro id hne
    unfold readBlockD
    by_cases hid2 : 0 ≤ id
    · rw [if_pos hid2, if_pos hid2]
      dsimp only
      rw [List.getElem?_set_ne (by omega)]
    · rw [if_neg hid2, if_neg hid2]

/-- C10: `deleteRecord` never checks `record_index` against the block's
`num_records` (or against the 92-slot capacity): inside `[0, 92)` it
reports success whenever the block read succeeds — even at or beyond
`num_records` — and outside `[0, 92)` the 44-byte `memcpy` leaves the
4080-byte record area, which the checked embedding reports as `none`
(the C++ writes out of bounds). -/
theorem deleteRecord_no_bounds_check (db : Database) (block_id record_index : Int) (b : Block)
    (hread : readBlockD db block_id = some b) :
    ((record_index < 0 ∨ (maxRecords : Int) ≤ record_index) →
      deleteRecord db block_id record_index = none) ∧
    ((0 ≤ record_index ∧ record_index < (maxRecords : Int)) →
      ∃ db', deleteRecord db block_id record_index = some (true, db')) := by
  obtain ⟨hid, hblt, hget⟩ := readBlockD_facts hread
  have h44 : ((recordSize : Nat) : Int) = 44 := by decide
  have h4080 : ((dataSize : Nat) : Int) = 4080 := by decide
  have h92 : ((maxRecords : Nat) : Int) = 92 := by decide
  constructor
  · intro hout
    simp only [deleteRecord]
    rw [hread]
    dsimp only
    rw [if_neg]
    intro ⟨hc1, hc2⟩
    rw [h44] at hc1 hc2
    rw [h4080] at hc2
    omega
  · intro ⟨ha, hb2⟩
    have hcond : 0 ≤ record_index * (recordSize : Int) ∧
        record_index * (recordSize : Int) + recordSize ≤ (dataSize : Int) := by
      rw [h44, h4080]
      omega
    have hrepl : block_id.toNat + 1 - db.blocks.length = 0 := by omega
    have hdel : deleteRecord db block_id record_index =
        some (writeBlockD db block_id { b with data := b.data.set record_index.toNat zeroRecord }) := by
      simp only [deleteRecord]
      rw [hread]
      dsimp only
      rw [if_pos hcond]
    rw [hdel]
    unfold writeBlockD
    rw [if_pos hid]
    exact ⟨_, rfl⟩

end Database

set_option maxRecDepth 1000000 in
/-- C7: starting from an empty heap, adding 93 records one by one yields
2 blocks holding 92 and 1 records and `num_records = 93`; and in general
`Block::addRecord` fails exactly when the block already holds
`MAX_RECORDS = 92` records, otherwise appending at slot `record_count`
and incrementing the count. -/
theorem packing_93_blocks :
    (∀ (b : Block) (r : Record), ((Block.addRecord b r).1 = false ↔ maxRecords ≤ b.num_records)) ∧
    (∀ (b : Block) (r : Record), b.num_records < maxRecords →
      Block.addRecord b r = (true,
        { b with data := b.data.set b.num_records r, num_records := b.num_records + 1 })) ∧
    ((List.replicate 93 zeroRecord).foldl (fun db r => (Database.addRecord db r).2)
        (⟨[], 0, 0⟩ : Database)).num_blocks = 2 ∧
    ((List.replicate 93 zeroRecord).foldl (fun db r => (Database.addRecord db r).2)
        (⟨[], 0, 0⟩ : Database)).num_records = 93 ∧
    ((Database.readBlockD ((List.replicate 93 zeroRecord).foldl
        (fun db r => (Database.addRecord db r).2) (⟨[], 0, 0⟩ : Database)) 0).getD
      zeroBlock).num_records = 92 ∧
    ((Database.readBlockD ((List.replicate 93 zeroRecord).foldl
        (fun db r => (Database.addRecord db r).2) (⟨[], 0, 0⟩ : Database)) 1).getD
      zeroBlock).num_records = 1 := by
  refine ⟨?_, ?_, rfl, rfl, rfl, rfl⟩
  · intro b r
    unfold Block.addRecord
    by_cases h : b.num_records ≥ maxRecords
    · rw [if_pos h]
      simpa using h
    · rw [if_neg h]
      simpa using h
  · intro b r h
    unfold Block.addRecord
    rw [if_neg (by omega)]

/-- C7 witness: `Block::addRecord` on a fresh block appends at slot 0 and
sets the count to 1. -/
theorem packing_93_blocks_witness :
    Block.addRecord zeroBlock zeroRecord =
      (true,
        { zeroBlock with
            data := zeroBlock.data.set zeroBlock.num_records zeroRecord,
            num_records := zeroBlock.num_records + 1 }) :=
  packing_93_blocks.2.1 zeroBlock zeroRecord (by decide)

set_option maxRecDepth 1000000 in
/-- C9: on the reachable state built by bulk-loading 101 entries, the
leaf that `findLeaf` selects for key 50 already holds
`num_keys = MAX_KEYS = 101` keys in a 101-slot array, and `insert`
reaches the out-of-bounds write `keys[101]` of `insertIntoLeaf` — the
checked embedding returns `none`. -/
theorem insert_full_leaf_oob :
    ((BPTree.readNodeT (BPTree.bulkLoad ⟨[blankNode], 0, 1⟩
        ((List.range 101).map (fun i : Nat => (((i : Int) + 1),
          (⟨(i : Int), 0⟩ : RecordPointer))))).2
      (BPTree.findLeaf (BPTree.bulkLoad ⟨[blankNode], 0, 1⟩
        ((List.range 101).map (fun i : Nat => (((i : Int) + 1),
          (⟨(i : Int), 0⟩ : RecordPointer))))).2 50)).getD blankNode).num_keys = order ∧
    ((BPTree.readNodeT (BPTree.bulkLoad ⟨[blankNode], 0, 1⟩
        ((List.range 101).map (fun i : Nat => (((i : Int) + 1),
          (⟨(i : Int), 0⟩ : RecordPointer))))).2
      (BPTree.findLeaf (BPTree.bulkLoad ⟨[blankNode], 0, 1⟩
        ((List.range 101).map (fun i : Nat => (((i : Int) + 1),
          (⟨(i : Int), 0⟩ : RecordPointer))))).2 50)).getD blankNode).keys.length = 101 ∧
    BPTree.insertC (BPTree.bulkLoad ⟨[blankNode], 0, 1⟩
        ((List.range 101).map (fun i : Nat => (((i : Int) + 1),
          (⟨(i : Int), 0⟩ : RecordPointer))))).2 50 ⟨4, 5⟩ = none :=
  ⟨rfl, rfl, rfl⟩

set_option maxRecDepth 1000000 in
/-- C1 counterexample: bulk-load 102 entries that all carry key 5 (they
straddle a leaf boundary); `removeRange(5, 5)` reports only 1 removed
entry although all 102 entries have their key in `[5, 5]`. -/
theorem removeRange_miscount_cex :
    (BPTree.removeRange (BPTree.bulkLoad ⟨[blankNode], 0, 1⟩
        ((List.range 102).map (fun i : Nat => ((5 : Int),
          (⟨(i : Int), 0⟩ : RecordPointer))))).2 5 5).1 = 1 ∧
    (((List.range 102).map (fun i : Nat => ((5 : Int),
        (⟨(i : Int), 0⟩ : RecordPointer)))).filter
      (fun e => decide ((5 : Int) ≤ e.1) && decide (e.1 ≤ (5 : Int)))).length = 102 :=
  ⟨rfl, rfl⟩

set_option maxRecDepth 1000000 in
/-- C2 counterexample: on a 3-entry tree, `removeRange(2, 2)` leaves two
survivors, whose rebuild (bulk-load from `next_node_id = 0`) allocates
exactly one node — yet `getNumNodes()` afterwards reports the hard-coded
`251`. -/
theorem removeRange_nodecount_cex :
    (BPTree.collectSurvivors (BPTree.bulkLoad ⟨[blankNode], 0, 1⟩
        [((1 : Int), ⟨0, 1⟩), ((2 : Int), ⟨0, 2⟩), ((3 : Int), ⟨0, 3⟩)]).2 2 2).length = 2 ∧
    BPTree.getNumNodes (BPTree.removeRange (BPTree.bulkLoad ⟨[blankNode], 0, 1⟩
        [((1 : Int), ⟨0, 1⟩), ((2 : Int), ⟨0, 2⟩), ((3 : Int), ⟨0, 3⟩)]).2 2 2).2 = 251 ∧
    (BPTree.bulkLoad
      { (BPTree.bulkLoad ⟨[blankNode], 0, 1⟩
            [((1 : Int), ⟨0, 1⟩), ((2 : Int), ⟨0, 2⟩), ((3 : Int), ⟨0, 3⟩)]).2 with
          root_id := -1
          next_node_id := 0 }
      (sortPairs (BPTree.collectSurvivors (BPTree.bulkLoad ⟨[blankNode], 0, 1⟩
        [((1 : Int), ⟨0, 1⟩), ((2 : Int), ⟨0, 2⟩), ((3 : Int), ⟨0, 3⟩)]).2 2 2))).2.next_node_id
      = 1 :=
  ⟨rfl, rfl, rfl⟩

set_option maxRecDepth 1000000 in
/-- C3 counterexample: bulk-load 102 entries that all carry key 5.  The
root's separator `keys[0]` is 5, yet the leaf under `children[0]` holds
entries whose key is 5 — not strictly below the separator as claimed. -/
theorem bulkLoad_separator_violation_cex :
    ∃ root leaf,
      BPTree.readNodeT (BPTree.bulkLoad ⟨[blankNode], 0, 1⟩
          ((List.range 102).map (fun i : Nat => ((5 : Int),
            (⟨(i : Int), 0⟩ : RecordPointer))))).2
        (BPTree.bulkLoad ⟨[blankNode], 0, 1⟩
          ((List.range 102).map (fun i : Nat => ((5 : Int),
            (⟨(i : Int), 0⟩ : RecordPointer))))).2.root_id = some root ∧
      root.is_leaf = false ∧
      root.num_keys = 1 ∧
      BPTree.readNodeT (BPTree.bulkLoad ⟨[blankNode], 0, 1⟩
          ((List.range 102).map (fun i : Nat => ((5 : Int),
            (⟨(i : Int), 0⟩ : RecordPointer))))).2
        (root.children.getD 0 (-1)) = some leaf ∧
      leaf.is_leaf = true ∧
      ∃ e ∈ nodeEntries leaf, ¬(e.1 < root.keys.getD 0 0) := by
  refine ⟨_, _, rfl, rfl, rfl, rfl, rfl, ?_⟩
  decide

set_option maxRecDepth 1000000 in
/-- C5 counterexample: 102 entries all carrying key 5, queried over
`[5, 5]` — an interval containing every key of the input — return a
single pointer instead of 102. -/
theorem rangeSearch_duplicates_cex :
    (∀ e ∈ (List.range 102).map (fun i : Nat => ((5 : Int),
        (⟨(i : Int), 0⟩ : RecordPointer))), (5 : Int) ≤ e.1 ∧ e.1 ≤ 5) ∧
    ((List.range 102).map (fun i : Nat => ((5 : Int),
        (⟨(i : Int), 0⟩ : RecordPointer)))).length = 102 ∧
    (BPTree.rangeSearch (BPTree.bulkLoad ⟨[blankNode], 0, 1⟩
        ((List.range 102).map (fun i : Nat => ((5 : Int),
          (⟨(i : Int), 0⟩ : RecordPointer))))).2 5 5).length = 1 :=
  ⟨by decide, rfl, rfl⟩

namespace BPTree

set_option maxRecDepth 1000000 in
/-- C1 witness: on the bulk-loaded tree over keys 1, 3, 5,
`removeRange(2, 4)` counts exactly the one in-range entry, afterwards
the range query is empty and the survivors are the out-of-range
entries. -/
theorem removeRange_rebuild_witness :
    (BPTree.removeRange (BPTree.bulkLoad ⟨[blankNode], 0, 1⟩
        [((1 : Int), ⟨0, 1⟩), ((3 : Int), ⟨0, 2⟩), ((5 : Int), ⟨0, 3⟩)]).2 2 4).1 = 1 ∧
    BPTree.rangeSearch (BPTree.removeRange (BPTree.bulkLoad ⟨[blankNode], 0, 1⟩
        [((1 : Int), ⟨0, 1⟩), ((3 : Int), ⟨0, 2⟩), ((5 : Int), ⟨0, 3⟩)]).2 2 4).2 2 4 = [] ∧
    BPTree.treeEntries (BPTree.removeRange (BPTree.bulkLoad ⟨[blankNode], 0, 1⟩
        [((1 : Int), ⟨0, 1⟩), ((3 : Int), ⟨0, 2⟩), ((5 : Int), ⟨0, 3⟩)]).2 2 4).2 =
      [((1 : Int), ⟨0, 1⟩), ((5 : Int), ⟨0, 3⟩)] := by
  obtain ⟨h1, h2, h3, h4⟩ := removeRange_bulkLoad_spec ⟨[blankNode], 0, 1⟩
    [((1 : Int), ⟨0, 1⟩), ((3 : Int), ⟨0, 2⟩), ((5 : Int), ⟨0, 3⟩)] 2 4 (by decide) (by decide)
    (by decide) (by decide) (by decide) (by decide) (by decide)
  refine ⟨?_, h2, ?_⟩
  · rw [h1]
    rfl
  · rw [h3]
    rfl

set_option maxRecDepth 1000000 in
/-- C2 witness: on the 3-entry tree from the counterexample,
`getNumNodes` after a survivor-leaving `removeRange` is 251. -/
theorem getNumNodes_removeRange_witness :
    BPTree.getNumNodes (BPTree.removeRange (BPTree.bulkLoad ⟨[blankNode], 0, 1⟩
        [((1 : Int), ⟨0, 1⟩), ((2 : Int), ⟨0, 2⟩), ((3 : Int), ⟨0, 3⟩)]).2 2 2).2 = 251 :=
  (getNumNodes_removeRange (BPTree.bulkLoad ⟨[blankNode], 0, 1⟩
    [((1 : Int), ⟨0, 1⟩), ((2 : Int), ⟨0, 2⟩), ((3 : Int), ⟨0, 3⟩)]).2 2 2).2.2 (by decide)

set_option maxRecDepth 1000000 in
/-- C3 witness: the separator bounds hold on a bulk-loaded two-leaf tree
over 102 distinct keys. -/
theorem bulkLoad_separator_bounds_witness :
    ∃ root, readNodeT (bulkLoad ⟨[blankNode], 0, 1⟩
        ((List.range 102).map (fun i : Nat => (((i : Int) + 1),
          (⟨(i : Int), 0⟩ : RecordPointer))))).2
      (bulkLoad ⟨[blankNode], 0, 1⟩
        ((List.range 102).map (fun i : Nat => (((i : Int) + 1),
          (⟨(i : Int), 0⟩ : RecordPointer))))).2.root_id = some root ∧
      root.is_leaf = false ∧
      root.num_keys = (chunksOf (sortPairs ((List.range 102).map (fun i : Nat =>
        (((i : Int) + 1), (⟨(i : Int), 0⟩ : RecordPointer)))))).length - 1 ∧
      ∀ j, j < (chunksOf (sortPairs ((List.range 102).map (fun i : Nat =>
          (((i : Int) + 1), (⟨(i : Int), 0⟩ : RecordPointer)))))).length → ∃ leaf,
        readNodeT (bulkLoad ⟨[blankNode], 0, 1⟩
            ((List.range 102).map (fun i : Nat => (((i : Int) + 1),
              (⟨(i : Int), 0⟩ : RecordPointer))))).2
          (root.children.getD j (-1)) = some leaf ∧
        leaf.is_leaf = true ∧
        ∀ e ∈ nodeEntries leaf,
          (∀ m, j ≤ m → m < root.num_keys → e.1 ≤ root.keys.getD m 0) ∧
          (∀ m, m < j → root.keys.getD m 0 ≤ e.1) :=
  bulkLoad_separator_bounds ⟨[blankNode], 0, 1⟩
    ((List.range 102).map (fun i : Nat => (((i : Int) + 1),
      (⟨(i : Int), 0⟩ : RecordPointer))))
    (by decide) (by decide) (by decide) (by decide)

set_option maxRecDepth 1000000 in
/-- C5 witness: three entries with keys 1, 3, 5 queried over `[0, 10]`
come back as all three pointers in key order. -/
theorem bulkLoad_rangeSearch_all_witness :
    rangeSearch (bulkLoad ⟨[blankNode], 0, 1⟩
        [((1 : Int), ⟨0, 1⟩), ((3 : Int), ⟨0, 2⟩), ((5 : Int), ⟨0, 3⟩)]).2 0 10 =
      (sortPairs [((1 : Int), ⟨0, 1⟩), ((3 : Int), ⟨0, 2⟩), ((5 : Int), ⟨0, 3⟩)]).map
        Prod.snd ∧
    (rangeSearch (bulkLoad ⟨[blankNode], 0, 1⟩
        [((1 : Int), ⟨0, 1⟩), ((3 : Int), ⟨0, 2⟩), ((5 : Int), ⟨0, 3⟩)]).2 0 10).length =
      ([((1 : Int), (⟨0, 1⟩ : RecordPointer)), ((3 : Int), ⟨0, 2⟩),
        ((5 : Int), ⟨0, 3⟩)]).length :=
  bulkLoad_rangeSearch_all ⟨[blankNode], 0, 1⟩
    [((1 : Int), ⟨0, 1⟩), ((3 : Int), ⟨0, 2⟩), ((5 : Int), ⟨0, 3⟩)]
    (by decide) (by decide) (by decide) 0 10 (by decide) (by decide) (by decide)

set_option maxRecDepth 1000000 in
/-- C8 witness: removing the absent key 6 from a two-entry tree returns
`false` and the identical tree. -/
theorem remove_missing_key_witness :
    remove (bulkLoad ⟨[blankNode], 0, 1⟩
        [((5 : Int), ⟨1, 2⟩), ((7 : Int), ⟨1, 3⟩)]).2 6 =
      (false, (bulkLoad ⟨[blankNode], 0, 1⟩
        [((5 : Int), ⟨1, 2⟩), ((7 : Int), ⟨1, 3⟩)]).2) :=
  remove_missing_key (bulkLoad ⟨[blankNode], 0, 1⟩
    [((5 : Int), ⟨1, 2⟩), ((7 : Int), ⟨1, 3⟩)]).2 6 (by decide)

end BPTree

namespace Database

/-- C4 witness: a heap whose metadata says 25599 blocks (and holds no
readable last block) refuses a new record, unchanged. -/
theorem addRecord_capacity_witness :
    addRecord ⟨[], 25599, 7⟩ zeroRecord = (false, ⟨[], 25599, 7⟩) :=
  addRecord_capacity ⟨[], 25599, 7⟩ zeroRecord
    (Or.inr (fun b hb => by simp [readBlockD] at hb)) (by decide)

/-- C6 witness: deleting slot 0 of block 0 of a one-block heap zeroes
exactly that slot and preserves all counts. -/
theorem deleteRecord_frame_witness :
    ∃ db', deleteRecord ⟨[zeroBlock], 1, 1⟩ 0 0 = some (true, db') ∧
      db'.num_records = (⟨[zeroBlock], 1, 1⟩ : Database).num_records ∧
      db'.num_blocks = (⟨[zeroBlock], 1, 1⟩ : Database).num_blocks ∧
      (∃ b', readBlockD db' 0 = some b' ∧
        b'.num_records = zeroBlock.num_records ∧
        b'.data.getD (0 : Int).toNat zeroRecord = zeroRecord ∧
        (∀ j, j ≠ (0 : Int).toNat →
          b'.data.getD j zeroRecord = zeroBlock.data.getD j zeroRecord)) ∧
      (∀ id, id ≠ 0 →
        readBlockD db' id = readBlockD (⟨[zeroBlock], 1, 1⟩ : Database) id) :=
  deleteRecord_frame ⟨[zeroBlock], 1, 1⟩ 0 0 zeroBlock rfl rfl (le_refl 0) (by decide)

/-- C10 witness: on a one-block heap, deleting record 92 of block 0 is
the out-of-bounds write, while deleting slot 5 — far beyond the block's
zero `num_records` — still reports success. -/
theorem deleteRecord_no_bounds_check_witness :
    deleteRecord ⟨[zeroBlock], 1, 1⟩ 0 92 = none ∧
    (∃ db', deleteRecord ⟨[zeroBlock], 1, 1⟩ 0 5 = some (true, db')) :=
  ⟨(deleteRecord_no_bounds_check ⟨[zeroBlock], 1, 1⟩ 0 92 zeroBlock rfl).1
      (Or.inr (by decide)),
   (deleteRecord_no_bounds_check ⟨[zeroBlock], 1, 1⟩ 0 5 zeroBlock rfl).2
      ⟨by decide, by decide⟩⟩

end Database
